import Mathlib

/-!
# Sine lookup table benchmark (SinLUT.c)

A shallow embedding of `SinLUT.c`: the float validity checks, the table `fSine`,
`lerp`, `Sine`, the x87 routine `SinAsm`, and the trial blocks of `main`.

Floating-point data are modelled exactly.  A finite datum of a binary format is a
sign and a magnitude counted in units of the smallest subnormal of the format, so
binary32 data are `n / 2 ^ 149`, binary64 data are `n / 2 ^ 1074` and x87
double-extended data are `n / 2 ^ 16445`.  Every arithmetic operation computes the
exact result and rounds it to nearest, ties to even.
-/

namespace SinLUT

set_option exponentiation.threshold 512

/-! ## Binary floating-point formats -/

/-- A binary floating-point format: `prec` significant bits, finite data are the
multiples `n / 2 ^ scale` of the smallest subnormal with `n < 2 ^ top`. -/
structure Fmt where
  prec : Nat
  scale : Nat
  top : Nat
deriving DecidableEq, Repr

/-- IEEE-754 single precision, the C type `float`. -/
def binary32 : Fmt := ⟨24, 149, 277⟩

/-- IEEE-754 double precision, the C type `double`. -/
def binary64 : Fmt := ⟨53, 1074, 2098⟩

/-- The x87 double-extended register format. -/
def x87ext : Fmt := ⟨64, 16445, 32829⟩

/-- A floating-point datum of format `f`: a NaN, a signed infinity, or a signed
finite magnitude `n / 2 ^ f.scale` (so `fin true 0` is the negative zero). -/
inductive FP (f : Fmt) where
  | nan : FP f
  | inf (neg : Bool) : FP f
  | fin (neg : Bool) (n : Nat) : FP f
deriving DecidableEq, Repr

/-- Nearest integer to `n / d`, ties to even. -/
def rne (n d : Nat) : Nat :=
  let q := n / d
  let r := n % d
  if 2 * r < d then q else if d < 2 * r then q + 1 else if q % 2 = 0 then q else q + 1

/-- Number of low bits to drop from `q` so that fewer than `2 ^ prec` remain: the
least `sh` with `q / 2 ^ sh < 2 ^ prec`.  The first argument bounds the recursion;
the strides of 1024 and 32 bits only shorten it. -/
def excessBits (prec : Nat) : Nat → Nat → Nat
  | 0, _ => 0
  | fuel + 1, q =>
    if q < 2 ^ prec then 0
    else if 2 ^ prec ≤ q / 2 ^ 1024 then excessBits prec fuel (q / 2 ^ 1024) + 1024
    else if 2 ^ prec ≤ q / 2 ^ 32 then excessBits prec fuel (q / 2 ^ 32) + 32
    else excessBits prec fuel (q / 2) + 1

/-- Round the magnitude `n / d` (in units of the smallest subnormal) to `prec`
significant bits, to nearest with ties to even. -/
def roundMag (prec n d : Nat) : Nat :=
  let sh := excessBits prec (n / d) (n / d)
  rne n (d * 2 ^ sh) * 2 ^ sh

namespace FP

variable {f : Fmt}

/-- Round the exact value `± n / d` (in units of the smallest subnormal of `f`) to
`p` significant bits in the exponent range of `f`; overflow gives an infinity. -/
def roundP (f : Fmt) (p : Nat) (neg : Bool) (n d : Nat) : FP f :=
  let m := roundMag p n d
  if m < 2 ^ f.top then fin neg m else inf neg

/-- Round the exact value `± n / d` to the format `f`. -/
def round (f : Fmt) (neg : Bool) (n d : Nat) : FP f :=
  roundP f f.prec neg n d

/-- Conversion of a C `int` to the format `f`. -/
def ofInt (f : Fmt) (i : Int) : FP f :=
  round f (decide (i < 0)) (i.natAbs * 2 ^ f.scale) 1

/-- The decimal constant `m * 10 ^ e` or `m / 10 ^ e` rounded to the format `f`. -/
def ofDecimal (f : Fmt) (m : Nat) (neg : Bool) (e : Nat) : FP f :=
  if neg then round f false (m * 2 ^ f.scale) (10 ^ e)
  else round f false (m * 10 ^ e * 2 ^ f.scale) 1

/-- Conversion between formats (a C cast, a store or a load). -/
def cvt (g : Fmt) : FP f → FP g
  | nan => nan
  | inf s => inf s
  | fin s n => round g s (n * 2 ^ g.scale) (2 ^ f.scale)

/-- Negation. -/
def neg : FP f → FP f
  | nan => nan
  | inf s => inf (!s)
  | fin s n => fin (!s) n

/-- Multiplication with the result rounded to `p` significant bits. -/
def mulP (p : Nat) : FP f → FP f → FP f
  | nan, _ => nan
  | _, nan => nan
  | inf s, inf t => inf (xor s t)
  | inf s, fin t m => if m = 0 then nan else inf (xor s t)
  | fin s n, inf t => if n = 0 then nan else inf (xor s t)
  | fin s n, fin t m => roundP f p (xor s t) (n * m) (2 ^ f.scale)

/-- Division with the result rounded to `p` significant bits. -/
def divP (p : Nat) : FP f → FP f → FP f
  | nan, _ => nan
  | _, nan => nan
  | inf _, inf _ => nan
  | inf s, fin t _ => inf (xor s t)
  | fin s _, inf t => fin (xor s t) 0
  | fin s n, fin t m =>
    if m = 0 then (if n = 0 then nan else inf (xor s t))
    else roundP f p (xor s t) (n * 2 ^ f.scale) m

/-- Addition with the result rounded to `p` significant bits.  An exact zero sum
of operands of opposite sign is the positive zero. -/
def addP (p : Nat) : FP f → FP f → FP f
  | nan, _ => nan
  | _, nan => nan
  | inf s, inf t => if s = t then inf s else nan
  | inf s, fin _ _ => inf s
  | fin _ _, inf t => inf t
  | fin s n, fin t m =>
    if s = t then roundP f p s (n + m) 1
    else if m < n then roundP f p s (n - m) 1
    else if n < m then roundP f p t (m - n) 1
    else fin false 0

/-- Multiplication in the format `f`. -/
def mul (a b : FP f) : FP f := mulP f.prec a b

/-- Division in the format `f`. -/
def div (a b : FP f) : FP f := divP f.prec a b

/-- Addition in the format `f`. -/
def add (a b : FP f) : FP f := addP f.prec a b

/-- Subtraction in the format `f`. -/
def sub (a b : FP f) : FP f := addP f.prec a (neg b)

/-- The C comparison `a == b`: false on NaN, and the two zeros are equal. -/
def eq : FP f → FP f → Bool
  | inf s, inf t => s == t
  | fin s n, fin t m => (n == 0 && m == 0) || (s == t && n == m)
  | _, _ => false

/-- The C comparison `a != b`. -/
def ne (a b : FP f) : Bool := !(eq a b)

/-- The signed magnitude of a finite datum, in units of the smallest subnormal. -/
def sval (s : Bool) (n : Nat) : Int := if s then -(n : Int) else (n : Int)

/-- The C comparison `a < b`: false on NaN, and the two zeros are equal. -/
def lt : FP f → FP f → Bool
  | nan, _ => false
  | _, nan => false
  | inf s, inf t => s && !t
  | inf s, fin _ _ => s
  | fin _ _, inf t => !t
  | fin false n, fin false m => decide (n < m)
  | fin true n, fin true m => decide (m < n)
  | fin true n, fin false m => !(n == 0 && m == 0)
  | fin false _, fin true _ => false

/-- The rational value of a finite datum (0 for NaN and the infinities). -/
def toRat : FP f → ℚ
  | fin s n => (sval s n : ℚ) / 2 ^ f.scale
  | _ => 0

/-- The datum is a NaN. -/
def IsNaN : FP f → Prop
  | nan => True
  | _ => False

/-- The datum is an infinity. -/
def IsInf : FP f → Prop
  | inf _ => True
  | _ => False

/-- The magnitude `n` has at most `p` significant bits. -/
def Rep (p n : Nat) : Prop := ∃ m e : Nat, n = m * 2 ^ e ∧ m < 2 ^ p

/-- The datum is a finite member of its format. -/
def IsFinite : FP f → Prop
  | fin _ n => Rep f.prec n ∧ n < 2 ^ f.top
  | _ => False

end FP

/-- The C type `float`. -/
abbrev F32 := FP binary32

/-- The C type `double`. -/
abbrev F64 := FP binary64

/-- An x87 register. -/
abbrev X80 := FP x87ext

/-- A decimal floating constant of C has type `double`. -/
instance : OfScientific F64 := ⟨fun m s e => FP.ofDecimal binary64 m s e⟩

/-! ## SinLUT.c -/

/-- The evaluation format of `float` expressions: the operands are widened to
`ev`, the operators work in `ev`, and the value is narrowed to `float` when it is
returned or compared (`ev = binary32` when `FLT_EVAL_METHOD` is 0, `binary64` when
it is 1, `x87ext` when it is 2). -/
abbrev Eval := Fmt

/-- Float validity check `isNaN`: `val != val`. -/
def isNaN (ev : Eval) (val : F32) : Bool :=
  FP.ne (FP.cvt ev val) (FP.cvt ev val)

/-- Float validity check `isNotNaN`: `val == val`. -/
def isNotNaN (ev : Eval) (val : F32) : Bool :=
  FP.eq (FP.cvt ev val) (FP.cvt ev val)

/-- Float validity check `isNaNOrInfinity`: `(val*0) != 0`. -/
def isNaNOrInfinity (ev : Eval) (val : F32) : Bool :=
  FP.ne (FP.mul (FP.cvt ev val) (FP.ofInt ev 0)) (FP.ofInt ev 0)

/-- Float validity check `isNotNaNOrInfinity`: `(val*0) == 0`. -/
def isNotNaNOrInfinity (ev : Eval) (val : F32) : Bool :=
  FP.eq (FP.mul (FP.cvt ev val) (FP.ofInt ev 0)) (FP.ofInt ev 0)

/-- The initialisers of `fSine`, as written: constants of type `double`. -/
def fSineInit : List F64 := [
  0.000000, 0.017452, 0.034899, 0.052336, 0.069756, 0.087156, 0.104528, 0.121869, 0.139173,
  0.156434, 0.173648, 0.190809, 0.207912, 0.224951, 0.241922, 0.258819, 0.275637, 0.292372,
  0.309017, 0.325568, 0.342020, 0.358368, 0.374607, 0.390731, 0.406737, 0.422618, 0.438371,
  0.453990, 0.469472, 0.484810, 0.500000, 0.515038, 0.529919, 0.544639, 0.559193, 0.573576,
  0.587785, 0.601815, 0.615661, 0.629320, 0.642788, 0.656059, 0.669131, 0.681998, 0.694658,
  0.707107, 0.719340, 0.731354, 0.743145, 0.754710, 0.766044, 0.777146, 0.788011, 0.798636,
  0.809017, 0.819152, 0.829038, 0.838671, 0.848048, 0.857167, 0.866025, 0.874620, 0.882948,
  0.891007, 0.898794, 0.906308, 0.913545, 0.920505, 0.927184, 0.933580, 0.939693, 0.945519,
  0.951057, 0.956305, 0.961262, 0.965926, 0.970296, 0.974370, 0.978148, 0.981627, 0.984808,
  0.987688, 0.990268, 0.992546, 0.994522, 0.996195, 0.997564, 0.998630, 0.999391, 0.999848
]

/-- Table of sin values [0-89 degrees]: `const float fSine[ 90 ]`, each
initialiser converted to `float`. -/
def fSine : List F32 := fSineInit.map (FP.cvt binary32)

/-- The subscript expression `fSine[i]`: defined only inside the array. -/
def fSineAt (i : Int) : Option F32 :=
  if 0 ≤ i then fSine[i.toNat]? else none

/-- One call of `Sine`: the subscripts at which `fSine` was read, in order, and
the value returned (`none` when a read fell outside the array, which is undefined
behaviour). -/
structure SineCall where
  reads : List Int
  ret : Option F32
deriving DecidableEq

/-- Integer sin LUT, with the table reads recorded.  `FP_NAN` is the integer
constant of that name from `math.h`, which is converted to `float` by `return`. -/
def Sine.call (FP_NAN : Int) (a : Int) : SineCall :=
  if a ≥ 0 ∧ a ≤ 89 then
    ⟨[a], fSineAt a⟩
  else
    ⟨[], some (FP.ofInt binary32 FP_NAN)⟩

/-- Integer sin LUT: `float Sine( int a )`. -/
def Sine (FP_NAN : Int) (a : Int) : Option F32 :=
  (Sine.call FP_NAN a).ret

/-- Precise method `lerp`: `(1 - t)*v0 + t*v1`. -/
def lerp (ev : Eval) (v0 v1 t : F32) : F32 :=
  FP.cvt binary32
    (FP.add (FP.mul (FP.sub (FP.ofInt ev 1) (FP.cvt ev t)) (FP.cvt ev v0))
      (FP.mul (FP.cvt ev t) (FP.cvt ev v1)))

/-- Bit-for-bit identity of two data, as a Boolean test. -/
def FP.same {f : Fmt} : FP f → FP f → Bool
  | .nan, .nan => true
  | .inf s, .inf t => s == t
  | .fin s n, .fin t m => s == t && n == m
  | _, _ => false

/-- Bit-for-bit identity of two lists of data, as a Boolean test. -/
def FP.sameList {f : Fmt} : List (FP f) → List (FP f) → Bool
  | [], [] => true
  | a :: as, b :: bs => FP.same a b && FP.sameList as bs
  | _, _ => false

/-- The format is at least as wide as binary32, in precision and in exponent
range, so that every `float` converts to it exactly. -/
def Fmt.Wide (ev : Fmt) : Prop :=
  24 ≤ ev.prec ∧ 149 ≤ ev.scale ∧ ev.scale + 128 ≤ ev.top

/-- The datum is a member of its format: a NaN, an infinity or a finite member. -/
def FP.WellFormed {f : Fmt} : FP f → Prop
  | .fin _ n => FP.Rep f.prec n ∧ n < 2 ^ f.top
  | _ => True

/-- The number of millionths that `printf("%f")` shows for a finite `float`: its
magnitude rounded to six decimals. -/
def millionths : F32 → Option Nat
  | .fin _ n => some (rne (n * 10 ^ 6) (2 ^ 149))
  | _ => none

/-- Each member of the list is less than the next one. -/
def ascending : List Nat → Bool
  | a :: b :: l => decide (a < b) && ascending (b :: l)
  | _ => true

/-- The magnitudes of the entries of `fSine`, in units of `2 ^ (-149)`. -/
def fSineMags : List Nat := [
  0, 12454163158894891508611906040891940374839296, 24904758669849096303020938263634088304836608,
  37348217555693931884108349946269591064805376, 49779545906849234322939641485672975400173568, 62196598349329806765295946137248948834795520,
  74593675153489723491914252376323029251129344, 86968622969975812939080456035457562490961920, 99317172318465613957010790086374928087515136,
  111635032450988732837267521039884541088497664, 123919353502722206720219143133649160435138560, 136165850042607625037091414493706442296524800,
  148370959739616284213344952917134835349192704, 160530397162689773680205516529971995762229248, 172641312447005130578041599569880682476863488,
  184699420161503944338078960162898551662182400, 196701136707509578827124249645191087509209088, 208643622854023037464872945484877531201929216,
  220521901971428101526296895828324193130250240, 232333081659605943034456661991367903264374784, 244073631488999757252793811462456557009108992,
  255739957227108941768788012347299156312719360, 267328485909080826728572899212517667608985600, 278834964005328900401355179875519193795264512,
  290257222215764041804430275323181357349208064, 301590283910770032212770033701870468660723712, 312832001057905683202323842459377114692976640,
  323978098859936550483644442952195433857810432, 335026408016773513074027256167203048632877056, 345971973166448284807098096711679233893597184,
  356811923176489970264571492362373784095686656, 367543408182075606586815937356949458180374528, 378162855218352523919965066262028222581440512,
  388667371885201894287079440393446907269087232, 399053470288362778068908560161479336619147264, 409317492392390775176970194289095619123347456,
  419457396503084359980483562528651164172419072, 429469524584999132390966433603116080258088960, 439350388743874152789168307922764191756189696,
  449097777144324435075076673552647192173346816, 458708839921527016389060024730427840450789376, 468179366081191250117633002195339168456900608,
  477507824352665992037710020761647733234728960, 486690046276956460653113654090412495623684096, 495724500583411511740758316995900012666814464,
  504608422477799912675628369559424901247401984, 513338196459973128486549513425783198828199936, 521911653229842038190817169581852527886860288,
  530325985457879544046107765187121576335638528, 538579066379292390187024654150293895623213056, 546667280493932041642393538116165523212337152,
  554589904701768791417979557413695666595561472, 562343451108541699894532212453158150148718592, 569925707878865780972038991299604667378434048,
  577333825147918071790868388190697977225936896, 584566399250935023479858616706182423647354880, 591621303423123380173613030754761558091366400,
  598495645264364313895192191652272210528174080, 605187255474568703661891520385592003435429888, 611694815459564730837165096378117138711314432,
  618016070848671544203692474773073380891426816, 624149703047717325124927734993856931873947648, 630092734585991515389315572512652763687026688,
  635843846869322296360310066752857078228844544, 641400828062324681937898705779521569006026752, 646762997600264830245154562843431372482150400,
  651927505618319778422446132182249247598444544, 656894309581193661352465480874149265383882752, 661660602159359381292889036078620113750720512,
  666224937152757524255247078453580207684059136, 670587314561388090239539607999029547183898624, 674744884520428116386135118952630891191468032,
  678696966465143760818106684565169376170344448, 682442071660179744429676652572737488134602752, 685979477005506360226610163304294434576793600,
  689307821371655924455053363261410488424071168, 692426381658598730120771392773044857168986112, 695333669130979498117986599575290026825613312,
  698029726324094093564006916589971926364979200, 700512426473149260593435697725794107235762176, 702782492678174706200507802653797361945411584,
  704837713103785444285210719439033384000552960, 706678853385307046959087240674368894879662080, 708304509857975965350975579939548238538866688,
  709714597451200469226259871390919557036113920, 710908520670838446942629054122919844777033728, 711885471346268461271232402620856451312123904,
  712646172577520219206304776555770169148833792, 713189263235126036993992322429231271214317568, 713515381348523891393914034068628692073971712
]

/-- The contents of `fSine` evaluated: all entries are positive or `+0.0`. -/
def fSineBits : List F32 := fSineMags.map (FP.fin false)

/-- The datum is a zero of either sign. -/
def FP.IsZero {f : Fmt} : FP f → Prop
  | .fin _ n => n = 0
  | _ => False

/-- A finite `float` widened to `ev`: the magnitude in the units of `ev`. -/
def widen (ev : Fmt) (n : Nat) : Nat := n * 2 ^ (ev.scale - 149)

/-! ## The x87 routine and the trial blocks of `main` -/

/-- A floating constant with the suffix `f` has type `float`. -/
instance : OfScientific F32 := ⟨fun m s e => FP.ofDecimal binary32 m s e⟩

/-- A call made by `main` to one of the four routines under comparison.  A call
of `Sine` is recorded by `Sine` itself, with the argument it received and the
record of what it did; a call of the library `sin` is recorded with the argument
it received and the value it returned. -/
inductive Call where
  | sine (a : Int) (c : SineCall)
  | inlineFsin (i : Int)
  | sinAsm (i : Int)
  | libSin (x : F64) (r : F64)
deriving DecidableEq

/-- The program state: the global `float f`, the x87 register stack (top first,
at most 8 registers) and the calls made so far. -/
structure State where
  f : F32
  st : List X80
  calls : List Call

/-- The x87 unit: the precision-control setting (significant bits of the results
of `fmul` and `fdiv`: 24, 53 or 64) and the function computed by the `fsin`
instruction, which the architecture does not fix bit for bit.  Rounding is to
nearest, the setting in force unless a program changes it. -/
structure FPU where
  pc : Nat
  fsin : X80 → X80

/-- The x87 instructions of the two `__asm__` statements, memory operands
resolved to the values they hold: `fld` has a `float` operand, `fild` an `int`
operand (the loop variable, which any operand size of 16 bits or more reads in
full on 0..89). -/
inductive Instr where
  | fld (m : F32)
  | fild (m : Int)
  | fldpi
  | fmulp
  | fdivp
  | fsin
  | fstp_f

/-- The value pushed by `fldpi`: pi rounded to a 64-bit significand,
`0xC90FDAA22168C235 * 2 ^ (-62)`. -/
def piExt : X80 := FP.fin false (0xC90FDAA22168C235 * 2 ^ 16383)

/-- Push on the register stack; pushing on a full stack is a stack fault. -/
def push (x : X80) (s : State) : Option State :=
  if s.st.length < 8 then some { s with st := x :: s.st } else none

/-- One instruction.  The `__asm__` text is in the AT&T syntax of the GNU
assembler, where the operand-less `fmulp` is `st(1) := st(1) * st(0)` and pop,
and the operand-less `fdivp` is `st(1) := st(0) / st(1)` and pop (the assembler
keeps the reversed reading of the non-commutative operations with destination
`st(i)`, see "AT&T Syntax bugs" in its manual, so its `fdivp` is the instruction
that the Intel manual names `FDIVRP`).
`fstp_f` is `fstp %0` with `%0` the global `f`.  An instruction that meets an
empty register, or a push on a full stack, is a stack fault: `none`. -/
def Instr.exec (u : FPU) : Instr → State → Option State
  | .fld m, s => push (FP.cvt x87ext m) s
  | .fild m, s => push (FP.ofInt x87ext m) s
  | .fldpi, s => push piExt s
  | .fmulp, s =>
    match s.st with
    | a :: b :: r => some { s with st := FP.mulP u.pc b a :: r }
    | _ => none
  | .fdivp, s =>
    match s.st with
    | a :: b :: r => some { s with st := FP.divP u.pc a b :: r }
    | _ => none
  | .fsin, s =>
    match s.st with
    | a :: r => some { s with st := u.fsin a :: r }
    | _ => none
  | .fstp_f, s =>
    match s.st with
    | a :: r => some { s with f := FP.cvt binary32 a, st := r }
    | _ => none

/-- A sequence of instructions. -/
def run (u : FPU) : List Instr → State → Option State
  | [], s => some s
  | i :: is, s => (i.exec u s).bind (run u is)

/-- The global `float const two_right_angles = 180.0f`. -/
def two_right_angles : F32 := 180.0

/-- The local `float const rightAngleX2 = 180.0f` of the inline block. -/
def rightAngleX2 : F32 := 180.0

/-- The routine `void SinAsm( float degree )`. -/
def SinAsm (u : FPU) (degree : F32) : State → Option State :=
  run u [.fld two_right_angles, .fld degree, .fldpi, .fmulp, .fdivp, .fsin, .fstp_f]

/-- The `__asm__` statement of the inline block of `main`, for the loop value `i`. -/
def inlineFsin (u : FPU) (i : Int) : State → Option State :=
  run u [.fld rightAngleX2, .fild i, .fldpi, .fmulp, .fdivp, .fsin, .fstp_f]

/-- The loop `for ( int i=0; i<n; i++ ) body`. -/
def forLoop (n : Nat) (body : Int → State → Option State) (s : State) : Option State :=
  (List.range n).foldlM (fun s (i : Nat) => body (i : Int) s) s

/-- Record a call. -/
def logCall (c : Call) (s : State) : State :=
  { s with calls := s.calls ++ [c] }

/-- The routine `Sine` as it runs in a program state: with the argument `a` it
does what `Sine.call` says, records the call in the state and returns the value. -/
def Sine.invoke (FP_NAN : Int) (a : Int) (s : State) : Option (F32 × State) :=
  (Sine.call FP_NAN a).ret.map fun v =>
    (v, { s with calls := s.calls ++ [Call.sine a (Sine.call FP_NAN a)] })

/-- The library function `sin` as it runs in a program state: with the argument
`x` it records the call in the state and returns the value. -/
def libSin (sin : F64 → F64) (x : F64) (s : State) : Option (F64 × State) :=
  some (sin x, { s with calls := s.calls ++ [Call.libSin x (sin x)] })

/-- The trial block of the sine table function,
`for ( int j=0; j<1000; j++ ) for ( int i=0; i<90; i++ ) f = Sine( i );`,
with the routine called passed as it runs in a program state. -/
def sineBlock (callSine : Int → State → Option (F32 × State)) : State → Option State :=
  forLoop 1000 fun _ => forLoop 90 fun i s =>
    (callSine i s).map fun r => { r.2 with f := r.1 }

/-- The trial block of the inline assembly. -/
def inlineBlock (u : FPU) : State → Option State :=
  forLoop 1000 fun _ => forLoop 90 fun i s =>
    inlineFsin u i (logCall (.inlineFsin i) s)

/-- The trial block of the inline assembly function: `SinAsm( i )`, with `i`
converted to `float`. -/
def sinAsmBlock (u : FPU) : State → Option State :=
  forLoop 1000 fun _ => forLoop 90 fun i s =>
    SinAsm u (FP.ofInt binary32 i) (logCall (.sinAsm i) s)

/-- The trial block of the math library function,
`for ( int j=0; j<10000; j++ ) for ( int i=0; i<90; i++ ) f = sin( i );`,
with `i` converted to `double` and the result converted to `float`, the library
function passed as it runs in a program state. -/
def libBlock (callSin : F64 → State → Option (F64 × State)) : State → Option State :=
  forLoop 10000 fun _ => forLoop 90 fun i s =>
    (callSin (FP.ofInt binary64 i) s).map fun r => { r.2 with f := FP.cvt binary32 r.1 }

/-- The argument handed to `fsin` by `SinAsm`: `(degree * pi) / 180` as computed
on the register stack. -/
def sinArg (pc : Nat) (degree : F32) : X80 :=
  FP.divP pc (FP.mulP pc (FP.cvt x87ext degree) piExt) (FP.cvt x87ext two_right_angles)

/-- The calls of one pass of the inner loop. -/
def pass (c : Int → Call) : List Call := (List.range 90).map fun (i : Nat) => c (i : Int)

/-- The values of `i` met by the body of a trial block of `reps` outer
repetitions, in order: 0..89, `reps` times over. -/
def degrees (reps : Nat) : List Int :=
  (List.replicate reps ((List.range 90).map fun (i : Nat) => (i : Int))).flatten

/-- The `fsin` of the unit returns, at the register `x`, a finite datum within
`ε` of the sine of the value of `x`. -/
def FPU.SinWithin (u : FPU) (x : X80) (ε : ℝ) : Prop :=
  (∃ s n, u.fsin x = FP.fin s n) ∧
    |((FP.toRat (u.fsin x) : ℚ) : ℝ) - Real.sin ((FP.toRat x : ℚ) : ℝ)| ≤ ε

/-- Check that the argument handed to `fsin` for the integer degree `d` is
positive and within `10 ^ (-6)` of the interval `[d * 3.141592 / 180,
d * 3.141593 / 180]`. -/
def argOK (pc : Nat) (d : Nat) : Bool :=
  match sinArg pc (FP.ofInt binary32 (d : Int)) with
  | .fin false n =>
    decide (d * 3141592 * 2 ^ x87ext.scale ≤ n * 180 * 10 ^ 6 + 180 * 2 ^ x87ext.scale) &&
    decide (n * 180 * 10 ^ 6 ≤ d * 3141593 * 2 ^ x87ext.scale + 180 * 2 ^ x87ext.scale)
  | _ => false

/-- Check, in integer arithmetic, that `A ≤ q` and that `n / 2 ^ 149` is within
`9 * 10 ^ (-6)` of the Taylor polynomial of degree 9 of the sine at `A / q`. -/
def sinOK (A q n : Nat) : Bool :=
  let den := q ^ 9 * 362880
  let P := A * q ^ 8 * 362880 + A ^ 5 * q ^ 4 * 3024 + A ^ 9
  let Q := A ^ 3 * q ^ 6 * 60480 + A ^ 7 * q ^ 2 * 72
  decide (A ≤ q) &&
  decide (n * den * 10 ^ 6 + Q * 2 ^ 149 * 10 ^ 6 ≤ P * 2 ^ 149 * 10 ^ 6 + 9 * 2 ^ 149 * den) &&
  decide (P * 2 ^ 149 * 10 ^ 6 ≤ n * den * 10 ^ 6 + Q * 2 ^ 149 * 10 ^ 6 + 9 * 2 ^ 149 * den)

/-- Check, in integer arithmetic, that `A ≤ q` and that `n / 2 ^ 149` is within
`9 * 10 ^ (-6)` of the Taylor polynomial of degree 8 of the cosine at `A / q`. -/
def cosOK (A q n : Nat) : Bool :=
  let den := q ^ 8 * 40320
  let P := q ^ 8 * 40320 + A ^ 4 * q ^ 4 * 1680 + A ^ 8
  let Q := A ^ 2 * q ^ 6 * 20160 + A ^ 6 * q ^ 2 * 56
  decide (A ≤ q) &&
  decide (n * den * 10 ^ 6 + Q * 2 ^ 149 * 10 ^ 6 ≤ P * 2 ^ 149 * 10 ^ 6 + 9 * 2 ^ 149 * den) &&
  decide (P * 2 ^ 149 * 10 ^ 6 ≤ n * den * 10 ^ 6 + Q * 2 ^ 149 * 10 ^ 6 + 9 * 2 ^ 149 * den)

/-- Check of the table entry of magnitude `n` for the degree `a`, against the
sine of `a * 3.141592 / 180` when `a ≤ 45` and against the cosine of
`(90 - a) * 3.141592 / 180` otherwise. -/
def entryOK (a n : Nat) : Bool :=
  if a ≤ 45 then sinOK (a * 3141592) 180000000 n
  else cosOK ((90 - a) * 3141592) 180000000 n

/-! ## Exactness of rounding -/

theorem rne_mul_left (a d : Nat) (hd : 0 < d) : rne (a * d) d = a := by
  unfold rne
  simp [Nat.mul_div_cancel _ hd, hd]

theorem excessBits_step (p q w e : Nat) (hq : 2 ^ p ≤ q / 2 ^ w) (h : q / 2 ^ e < 2 ^ p) :
    ∃ e2, e = e2 + w ∧ q / 2 ^ w / 2 ^ e2 < 2 ^ p := by
  have hwe : w ≤ e := by
    by_contra hc
    have hle : q / 2 ^ w ≤ q / 2 ^ e :=
      Nat.div_le_div_left (Nat.pow_le_pow_right (by decide) (by omega)) (Nat.two_pow_pos _)
    omega
  refine ⟨e - w, by omega, ?_⟩
  rw [Nat.div_div_eq_div_mul, ← pow_add]
  have : w + (e - w) = e := by omega
  rw [this]; exact h

theorem excessBits_le (p : Nat) :
    ∀ fuel q e : Nat, q / 2 ^ e < 2 ^ p → excessBits p fuel q ≤ e
  | 0, _, _, _ => by simp [excessBits]
  | fuel + 1, q, e, h => by
    unfold excessBits
    split
    · omega
    · split
      · rename_i h1
        obtain ⟨e2, rfl, h2⟩ := excessBits_step p q 1024 e h1 h
        have := excessBits_le p fuel _ e2 h2
        omega
      · split
        · rename_i h1
          obtain ⟨e2, rfl, h2⟩ := excessBits_step p q 32 e h1 h
          have := excessBits_le p fuel _ e2 h2
          omega
        · rename_i hq _ _
          cases e with
          | zero => simp at h; omega
          | succ e =>
            have h2 : q / 2 / 2 ^ e < 2 ^ p := by
              rw [Nat.div_div_eq_div_mul, ← pow_succ']; exact h
            have := excessBits_le p fuel (q / 2) e h2
            omega

theorem roundMag_exact (p n k : Nat) (hk : 0 < k) (h : FP.Rep p n) :
    roundMag p (n * k) k = n := by
  obtain ⟨m, e, rfl, hm⟩ := h
  unfold roundMag
  simp only [Nat.mul_div_cancel _ hk]
  have hsh : excessBits p (m * 2 ^ e) (m * 2 ^ e) ≤ e :=
    excessBits_le p _ _ e (by rw [Nat.mul_div_cancel _ (by positivity)]; exact hm)
  generalize excessBits p (m * 2 ^ e) (m * 2 ^ e) = sh at hsh
  obtain ⟨j, rfl⟩ := Nat.exists_eq_add_of_le hsh
  have h1 : m * 2 ^ (sh + j) * k = (m * 2 ^ j) * (k * 2 ^ sh) := by ring
  rw [h1, rne_mul_left _ _ (by positivity)]
  ring

theorem roundMag_zero (p d : Nat) : roundMag p 0 d = 0 := by
  simp [roundMag, rne, excessBits]

theorem div_step (q w : Nat) (hw : 1 ≤ w) (hq : 1 ≤ q) : q / 2 ^ w ≤ q - 1 := by
  have h1 : q / 2 ^ w ≤ q / 2 ^ 1 :=
    Nat.div_le_div_left (Nat.pow_le_pow_right (by decide) hw) (Nat.two_pow_pos _)
  have h2 : q / 2 ^ 1 ≤ q - 1 := by
    rw [pow_one]; omega
  exact h1.trans h2

/-- With enough fuel, dropping `excessBits` low bits leaves fewer than `2 ^ p`. -/
theorem excessBits_lt (p : Nat) :
    ∀ fuel q : Nat, q ≤ fuel → q / 2 ^ excessBits p fuel q < 2 ^ p
  | 0, q, h => by
    have : q = 0 := by omega
    subst this
    simp [excessBits]
  | fuel + 1, q, h => by
    have hp : 1 ≤ 2 ^ p := Nat.one_le_two_pow
    unfold excessBits
    split
    · simpa using ‹q < 2 ^ p›
    · have hq : 1 ≤ q := by omega
      split
      · have ih := excessBits_lt p fuel (q / 2 ^ 1024)
          ((div_step q 1024 (by decide) hq).trans (by omega))
        rwa [Nat.div_div_eq_div_mul, ← pow_add, Nat.add_comm] at ih
      · split
        · have ih := excessBits_lt p fuel (q / 2 ^ 32)
            ((div_step q 32 (by decide) hq).trans (by omega))
          rwa [Nat.div_div_eq_div_mul, ← pow_add, Nat.add_comm] at ih
        · have ih := excessBits_lt p fuel (q / 2)
            (by have := div_step q 1 (by decide) hq; rw [pow_one] at this; omega)
          have e : q / 2 = q / 2 ^ 1 := by rw [pow_one]
          rw [e, Nat.div_div_eq_div_mul, ← pow_add, Nat.add_comm] at ih
          exact ih

theorem rne_le_succ (n d : Nat) : rne n d ≤ n / d + 1 := by
  unfold rne
  simp only []
  split_ifs <;> omega

/-- The rounded magnitude has at most `p` significant bits. -/
theorem roundMag_rep (p n d : Nat) (hp : 1 ≤ p) : FP.Rep p (roundMag p n d) := by
  unfold roundMag
  simp only []
  have hlt := excessBits_lt p (n / d) (n / d) (Nat.le_refl _)
  generalize excessBits p (n / d) (n / d) = sh at hlt
  have h1 := rne_le_succ n (d * 2 ^ sh)
  rw [← Nat.div_div_eq_div_mul] at h1
  by_cases hc : rne n (d * 2 ^ sh) < 2 ^ p
  · exact ⟨_, sh, rfl, hc⟩
  · have he : rne n (d * 2 ^ sh) = 2 ^ p := by omega
    obtain ⟨k, rfl⟩ : ∃ k, p = k + 1 := ⟨p - 1, by omega⟩
    refine ⟨2 ^ k, sh + 1, ?_, Nat.pow_lt_pow_right (by decide) (by omega)⟩
    rw [he]
    ring

/-- Rounding yields a member of the format. -/
theorem FP.round_wellFormed (f : Fmt) (hp : 1 ≤ f.prec) (s : Bool) (n d : Nat) :
    (FP.round f s n d).WellFormed := by
  unfold FP.round FP.roundP
  simp only []
  split
  · exact ⟨roundMag_rep _ n d hp, ‹_›⟩
  · trivial

theorem FP.cvt_wellFormed {f : Fmt} (g : Fmt) (hp : 1 ≤ g.prec) (v : FP f) :
    (FP.cvt g v).WellFormed := by
  cases v with
  | nan => trivial
  | inf s => trivial
  | fin s n => exact FP.round_wellFormed g hp s _ _

/-! ## Basic facts on data -/

theorem FP.same_eq {f : Fmt} : ∀ a b : FP f, FP.same a b = true → a = b
  | .nan, .nan, _ => rfl
  | .inf s, .inf t, h => by simp [FP.same] at h; rw [h]
  | .fin s n, .fin t m, h => by simp [FP.same] at h; rw [h.1, h.2]
  | .nan, .inf _, h => by simp [FP.same] at h
  | .nan, .fin _ _, h => by simp [FP.same] at h
  | .inf _, .nan, h => by simp [FP.same] at h
  | .inf _, .fin _ _, h => by simp [FP.same] at h
  | .fin _ _, .nan, h => by simp [FP.same] at h
  | .fin _ _, .inf _, h => by simp [FP.same] at h

theorem FP.sameList_eq {f : Fmt} : ∀ l r : List (FP f), FP.sameList l r = true → l = r
  | [], [], _ => rfl
  | a :: as, b :: bs, h => by
    simp [FP.sameList] at h
    rw [FP.same_eq a b h.1, FP.sameList_eq as bs h.2]
  | [], _ :: _, h => by simp [FP.sameList] at h
  | _ :: _, [], h => by simp [FP.sameList] at h

theorem fSine_eq : fSine = fSineBits :=
  FP.sameList_eq _ _ (by decide!)

theorem fSine_length : fSine.length = 90 := by
  rw [fSine_eq]; rfl

theorem FP.roundP_not_nan (f : Fmt) (p : Nat) (s : Bool) (n d : Nat) :
    ¬ (FP.roundP f p s n d).IsNaN := by
  unfold FP.roundP
  simp only []
  split <;> simp [FP.IsNaN]

theorem FP.cvt_isNaN {f : Fmt} (g : Fmt) (v : FP f) : (FP.cvt g v).IsNaN ↔ v.IsNaN := by
  cases v with
  | nan => simp [FP.cvt, FP.IsNaN]
  | inf s => simp [FP.cvt, FP.IsNaN]
  | fin s n =>
    constructor
    · intro h
      exact absurd h (FP.roundP_not_nan g g.prec s (n * 2 ^ g.scale) (2 ^ f.scale))
    · intro h
      exact False.elim h

theorem FP.eq_self {f : Fmt} (x : FP f) : FP.eq x x = true ↔ ¬ x.IsNaN := by
  cases x <;> simp [FP.eq, FP.IsNaN]

theorem isNaN_iff (ev : Eval) (v : F32) : isNaN ev v = true ↔ v.IsNaN := by
  unfold isNaN FP.ne
  have h1 := FP.eq_self (FP.cvt ev v)
  have h2 := FP.cvt_isNaN ev v
  cases h : FP.eq (FP.cvt ev v) (FP.cvt ev v)
  · simp only [h] at h1
    simpa using h2.mp (by simpa using h1)
  · simp only [h] at h1
    simpa using fun hv => (h1.mp trivial) (h2.mpr hv)

theorem fSineAt_of_range (a : Int) (h0 : 0 ≤ a) (h1 : a ≤ 89) :
    ∃ v, fSineAt a = some v ∧ fSine[a.toNat]? = some v := by
  have hlt : a.toNat < fSine.length := by rw [fSine_length]; omega
  exact ⟨fSine[a.toNat], by simp [fSineAt, h0, hlt], by simp [hlt]⟩

theorem fSineAt_eq (i : Int) :
    fSineAt i = if 0 ≤ i then fSineBits[i.toNat]? else none := by
  unfold fSineAt; rw [fSine_eq]

theorem ascending_pairwise : ∀ l : List Nat, ascending l = true → l.Pairwise (· < ·)
  | [], _ => List.Pairwise.nil
  | [_], _ => List.pairwise_singleton _ _
  | a :: b :: l, h => by
    simp only [ascending, Bool.and_eq_true, decide_eq_true_eq] at h
    have ih := ascending_pairwise (b :: l) h.2
    refine List.Pairwise.cons ?_ ih
    intro x hx
    rcases List.mem_cons.mp hx with rfl | hx
    · exact h.1
    · exact lt_trans h.1 ((List.pairwise_cons.mp ih).1 x hx)

theorem fSineBits_pairwise :
    fSineBits.Pairwise (fun x y => FP.lt x y = true) := by
  unfold fSineBits
  rw [List.pairwise_map]
  have h : fSineMags.Pairwise (· < ·) := ascending_pairwise _ (by decide!)
  exact h.imp (fun {a b} hab => by simpa [FP.lt] using hab)

/-! ## The claims on `Sine` and `fSine` -/

/-- C1 (refuted by the code): for every value of the `math.h` constant `FP_NAN`
and every `a` outside [0,89], `Sine(a)` returns that integer constant converted
to `float`, which is not a NaN: `isNaN(Sine(a))` is false. -/
theorem Sine_out_of_range_is_not_NaN (FP_NAN a : Int) (ev : Eval)
    (h : ¬ (0 ≤ a ∧ a ≤ 89)) :
    Sine FP_NAN a = some (FP.ofInt binary32 FP_NAN) ∧
    ¬ (FP.ofInt binary32 FP_NAN).IsNaN ∧
    isNaN ev (FP.ofInt binary32 FP_NAN) = false := by
  have hn : ¬ (FP.ofInt binary32 FP_NAN).IsNaN := FP.roundP_not_nan _ _ _ _ _
  refine ⟨?_, hn, ?_⟩
  · have h2 : ¬ (a ≥ 0 ∧ a ≤ 89) := h
    simp [Sine, Sine.call, h2]
  · cases hb : isNaN ev (FP.ofInt binary32 FP_NAN)
    · rfl
    · exact absurd ((isNaN_iff ev _).mp hb) hn

/-- Witness for C1 at `a = -1` with the glibc value `FP_NAN = 0`: the call
returns `+0.0`. -/
theorem Sine_out_of_range_is_not_NaN_witness :
    ¬ ((0 : Int) ≤ -1 ∧ (-1 : Int) ≤ 89) ∧
    Sine 0 (-1) = some (FP.fin false 0) ∧
    isNaN binary32 (FP.fin false 0) = false :=
  have h : ¬ ((0 : Int) ≤ -1 ∧ (-1 : Int) ≤ 89) := by decide
  have e : FP.ofInt binary32 0 = FP.fin false 0 := by decide!
  ⟨h, e ▸ (Sine_out_of_range_is_not_NaN 0 (-1) binary32 h).1,
    e ▸ (Sine_out_of_range_is_not_NaN 0 (-1) binary32 h).2.2⟩

/-- C2: for every `a` with `0 <= a <= 89`, `Sine(a)` returns the table entry
`fSine[a]`; `Sine(0)`, `Sine(1)`, `Sine(45)` and `Sine(89)` are the constants
0.000000, 0.017452, 0.707107 and 0.999848 converted to `float`, they print
as those six decimals, and evaluating `Sine` over 0..89 gives the table. -/
theorem Sine_in_range_is_table_entry (FP_NAN : Int) :
    (∀ a : Int, 0 ≤ a → a ≤ 89 →
      ∃ v, fSine[a.toNat]? = some v ∧ Sine FP_NAN a = some v) ∧
    Sine FP_NAN 0 = some (FP.cvt binary32 (0.000000 : F64)) ∧
    Sine FP_NAN 1 = some (FP.cvt binary32 (0.017452 : F64)) ∧
    Sine FP_NAN 45 = some (FP.cvt binary32 (0.707107 : F64)) ∧
    Sine FP_NAN 89 = some (FP.cvt binary32 (0.999848 : F64)) ∧
    (Sine FP_NAN 0).bind millionths = some 0 ∧
    (Sine FP_NAN 1).bind millionths = some 17452 ∧
    (Sine FP_NAN 45).bind millionths = some 707107 ∧
    (Sine FP_NAN 89).bind millionths = some 999848 ∧
    (List.range 90).map (fun (a : Nat) => Sine FP_NAN (a : Int)) = fSine.map some := by
  have e0 : fSineAt 0 = some (FP.cvt binary32 (0.000000 : F64)) := by
    rw [fSineAt_eq]; decide!
  have e1 : fSineAt 1 = some (FP.cvt binary32 (0.017452 : F64)) := by
    rw [fSineAt_eq]; decide!
  have e45 : fSineAt 45 = some (FP.cvt binary32 (0.707107 : F64)) := by
    rw [fSineAt_eq]; decide!
  have e89 : fSineAt 89 = some (FP.cvt binary32 (0.999848 : F64)) := by
    rw [fSineAt_eq]; decide!
  have m0 : (fSineAt 0).bind millionths = some 0 := by
    rw [fSineAt_eq]; decide!
  have m1 : (fSineAt 1).bind millionths = some 17452 := by
    rw [fSineAt_eq]; decide!
  have m45 : (fSineAt 45).bind millionths = some 707107 := by
    rw [fSineAt_eq]; decide!
  have m89 : (fSineAt 89).bind millionths = some 999848 := by
    rw [fSineAt_eq]; decide!
  have hs : ∀ a : Int, 0 ≤ a → a ≤ 89 → Sine FP_NAN a = fSineAt a := by
    intro a h0 h1
    have h2 : a ≥ 0 ∧ a ≤ 89 := ⟨h0, h1⟩
    simp [Sine, Sine.call, h2]
  refine ⟨?_, ?_, ?_, ?_, ?_, ?_, ?_, ?_, ?_, ?_⟩
  · intro a h0 h1
    obtain ⟨v, hv, hv2⟩ := fSineAt_of_range a h0 h1
    exact ⟨v, hv2, by rw [hs a h0 h1, hv]⟩
  · rw [hs 0 (by decide) (by decide), e0]
  · rw [hs 1 (by decide) (by decide), e1]
  · rw [hs 45 (by decide) (by decide), e45]
  · rw [hs 89 (by decide) (by decide), e89]
  · rw [hs 0 (by decide) (by decide), m0]
  · rw [hs 1 (by decide) (by decide), m1]
  · rw [hs 45 (by decide) (by decide), m45]
  · rw [hs 89 (by decide) (by decide), m89]
  · apply List.ext_getElem?
    intro i
    by_cases hi : i < 90
    · obtain ⟨v, hv, hv2⟩ := fSineAt_of_range (i : Int) (by omega) (by omega)
      have hv3 : fSine[i]? = some v := by simpa using hv2
      rw [List.getElem?_map, List.getElem?_map, List.getElem?_range hi, hv3]
      simp [hs (i : Int) (by omega) (by omega), hv]
    · have h1 : (List.range 90).length ≤ i := by simp; omega
      have h2 : fSine.length ≤ i := by rw [fSine_length]; omega
      rw [List.getElem?_map, List.getElem?_map, List.getElem?_eq_none h1,
        List.getElem?_eq_none h2]
      rfl

/-- Witness for C2 at `a = 45`. -/
theorem Sine_in_range_is_table_entry_witness :
    ∃ v, fSine[(45 : Int).toNat]? = some v ∧ Sine 0 45 = some v :=
  (Sine_in_range_is_table_entry 0).1 45 (by decide) (by decide)

/-- C4: `fSine` has exactly 90 entries and is strictly increasing: for all
integers `i`, `j` with `0 <= i < j <= 89`, `fSine[i] < fSine[j]`. -/
theorem fSine_strictly_increasing :
    fSine.length = 90 ∧
    ∀ i j : Int, 0 ≤ i → i < j → j ≤ 89 →
      ∃ x y, fSineAt i = some x ∧ fSineAt j = some y ∧ FP.lt x y = true := by
  refine ⟨fSine_length, ?_⟩
  intro i j h0 hij hj
  have hli : i.toNat < fSine.length := by rw [fSine_length]; omega
  have hlj : j.toNat < fSine.length := by rw [fSine_length]; omega
  have hlt : i.toNat < j.toNat := by omega
  have hp : fSine.Pairwise (fun x y => FP.lt x y = true) := by
    rw [fSine_eq]; exact fSineBits_pairwise
  refine ⟨fSine[i.toNat], fSine[j.toNat], ?_, ?_, ?_⟩
  · simp [fSineAt, h0, hli]
  · have : 0 ≤ j := by omega
    simp [fSineAt, this, hlj]
  · exact (List.pairwise_iff_getElem.mp hp) i.toNat j.toNat hli hlj hlt

/-- Witness for C4 at `i = 0`, `j = 89`. -/
theorem fSine_strictly_increasing_witness :
    ∃ x y, fSineAt 0 = some x ∧ fSineAt 89 = some y ∧ FP.lt x y = true :=
  fSine_strictly_increasing.2 0 89 (by decide) (by decide) (by decide)

/-- C5: the table has 90 entries and, for every integer `a`, `Sine(a)` subscripts
`fSine` only when `0 <= a <= 89`, the only subscript is `a` itself and lies within
the 90 entries,
no read falls outside the array, and an out-of-range `a` returns without any
read. -/
theorem Sine_reads_within_table (FP_NAN a : Int) :
    fSine.length = 90 ∧
    (∀ i ∈ (Sine.call FP_NAN a).reads,
      i = a ∧ 0 ≤ i ∧ i ≤ 89 ∧ i.toNat < fSine.length) ∧
    (Sine.call FP_NAN a).ret ≠ none ∧
    (¬ (0 ≤ a ∧ a ≤ 89) → (Sine.call FP_NAN a).reads = []) := by
  refine ⟨fSine_length, ?_⟩
  by_cases h : a ≥ 0 ∧ a ≤ 89
  · obtain ⟨v, hv, -⟩ := fSineAt_of_range a h.1 h.2
    refine ⟨?_, ?_, ?_⟩
    · intro i hi
      simp [Sine.call, h] at hi
      subst hi
      refine ⟨rfl, h.1, h.2, ?_⟩
      rw [fSine_length]; omega
    · simp [Sine.call, h, hv]
    · intro hn; exact absurd ⟨h.1, h.2⟩ hn
  · refine ⟨?_, ?_, ?_⟩
    · intro i hi
      simp [Sine.call, h] at hi
    · simp [Sine.call, h]
    · intro _; simp [Sine.call, h]

/-! ## Exact operations on finite data -/
theorem FP.Rep.scale {p q n : Nat} (h : FP.Rep p n) (hpq : p ≤ q) (j : Nat) :
    FP.Rep q (n * 2 ^ j) := by
  obtain ⟨m, e, rfl, hm⟩ := h
  exact ⟨m, e + j, by ring, lt_of_lt_of_le hm (Nat.pow_le_pow_right (by decide) hpq)⟩

theorem FP.roundP_exact (f : Fmt) (p : Nat) (s : Bool) (n k : Nat) (hk : 0 < k)
    (hr : FP.Rep p n) (ht : n < 2 ^ f.top) : FP.roundP f p s (n * k) k = FP.fin s n := by
  unfold FP.roundP
  simp only [roundMag_exact p n k hk hr, ht, if_true]

theorem FP.roundP_zero (f : Fmt) (p : Nat) (s : Bool) (d : Nat) :
    FP.roundP f p s 0 d = FP.fin s 0 := by
  unfold FP.roundP
  have h : (0 : Nat) < 2 ^ f.top := Nat.two_pow_pos _
  simp only [roundMag_zero, h, if_true]

theorem FP.ofInt_zero (ev : Fmt) : FP.ofInt ev 0 = FP.fin false 0 := by
  simp [FP.ofInt, FP.round, FP.roundP_zero]

theorem widen_rep {ev : Fmt} (hev : ev.Wide) {n : Nat} (hr : FP.Rep 24 n) :
    FP.Rep ev.prec (widen ev n) := hr.scale hev.1 _

theorem widen_lt {ev : Fmt} (hev : ev.Wide) {n : Nat} (hn : n < 2 ^ 277) :
    widen ev n < 2 ^ ev.top := by
  obtain ⟨-, h2, h3⟩ := hev
  unfold widen
  calc n * 2 ^ (ev.scale - 149) < 2 ^ 277 * 2 ^ (ev.scale - 149) :=
        Nat.mul_lt_mul_of_pos_right hn (Nat.two_pow_pos _)
    _ = 2 ^ (277 + (ev.scale - 149)) := by rw [pow_add]
    _ ≤ 2 ^ ev.top := Nat.pow_le_pow_right (by decide) (by omega)

theorem widen_mul {ev : Fmt} (hev : ev.Wide) (n : Nat) :
    n * 2 ^ ev.scale = widen ev n * 2 ^ 149 := by
  obtain ⟨-, h2, -⟩ := hev
  unfold widen
  rw [Nat.mul_assoc, ← pow_add]
  congr 2
  omega

theorem FP.cvt_widen {ev : Fmt} (hev : ev.Wide) (s : Bool) {n : Nat}
    (hr : FP.Rep binary32.prec n) (hn : n < 2 ^ binary32.top) :
    FP.cvt ev (FP.fin s n : F32) = FP.fin s (widen ev n) := by
  show FP.roundP ev ev.prec s (n * 2 ^ ev.scale) (2 ^ 149) = _
  rw [widen_mul hev]
  exact FP.roundP_exact ev ev.prec s _ _ (Nat.two_pow_pos _) (widen_rep hev hr) (widen_lt hev hn)

theorem FP.cvt_narrow {ev : Fmt} (hev : ev.Wide) (s : Bool) {n : Nat}
    (hr : FP.Rep binary32.prec n) (hn : n < 2 ^ binary32.top) :
    FP.cvt binary32 (FP.fin s (widen ev n) : FP ev) = FP.fin s n := by
  show FP.roundP binary32 24 s (widen ev n * 2 ^ 149) (2 ^ ev.scale) = _
  rw [← widen_mul hev]
  exact FP.roundP_exact binary32 24 s _ _ (Nat.two_pow_pos _) hr hn

theorem widen_one {ev : Fmt} (hev : ev.Wide) : widen ev (2 ^ 149) = 2 ^ ev.scale := by
  have := widen_mul hev (2 ^ 149)
  have h2 : (0:Nat) < 2 ^ 149 := Nat.two_pow_pos _
  rw [Nat.mul_comm] at this
  exact (Nat.eq_of_mul_eq_mul_right h2 this).symm

theorem rep_one : FP.Rep 24 (2 ^ 149) := ⟨1, 149, by ring, by decide⟩

theorem FP.ofInt_one {ev : Fmt} (hev : ev.Wide) : FP.ofInt ev 1 = FP.fin false (2 ^ ev.scale) := by
  show FP.roundP ev ev.prec false (1 * 2 ^ ev.scale) 1 = _
  rw [Nat.one_mul, ← widen_one hev]
  have := FP.roundP_exact ev ev.prec false (widen ev (2 ^ 149)) 1 (by decide)
    (widen_rep hev rep_one) (widen_lt hev (Nat.pow_lt_pow_right (by decide) (by decide)))
  rwa [Nat.mul_one] at this

theorem FP.mulP_zero_left {f : Fmt} (p : Nat) (s t : Bool) (m : Nat) :
    FP.mulP p (FP.fin s 0 : FP f) (FP.fin t m) = FP.fin (xor s t) 0 := by
  show FP.roundP f p (xor s t) (0 * m) (2 ^ f.scale) = _
  rw [Nat.zero_mul, FP.roundP_zero]

theorem FP.mulP_zero_right {f : Fmt} (p : Nat) (s t : Bool) (n : Nat) :
    FP.mulP p (FP.fin s n : FP f) (FP.fin t 0) = FP.fin (xor s t) 0 := by
  show FP.roundP f p (xor s t) (n * 0) (2 ^ f.scale) = _
  rw [Nat.mul_zero, FP.roundP_zero]

theorem FP.mulP_one_left {f : Fmt} (p : Nat) (t : Bool) {m : Nat}
    (hr : FP.Rep p m) (hm : m < 2 ^ f.top) :
    FP.mulP p (FP.fin false (2 ^ f.scale) : FP f) (FP.fin t m) = FP.fin t m := by
  show FP.roundP f p (xor false t) (2 ^ f.scale * m) (2 ^ f.scale) = _
  rw [Nat.mul_comm, Bool.false_xor]
  exact FP.roundP_exact f p t m _ (Nat.two_pow_pos _) hr hm

theorem FP.addP_zero_left {f : Fmt} (p : Nat) (s t : Bool) {m : Nat}
    (hr : FP.Rep p m) (hm : m < 2 ^ f.top) :
    FP.addP p (FP.fin s 0 : FP f) (FP.fin t m) =
      if m = 0 then FP.fin (s && t) 0 else FP.fin t m := by
  have hx := FP.roundP_exact f p t m 1 (by decide) hr hm
  rw [Nat.mul_one] at hx
  unfold FP.addP
  by_cases hst : s = t
  · subst hst
    simp only [if_true, Nat.zero_add, hx]
    split
    · next h => subst h; simp
    · rfl
  · simp only [hst, if_false, Nat.not_lt_zero, Nat.sub_zero, hx]
    by_cases h0 : m = 0
    · subst h0
      cases s <;> cases t <;> simp at hst ⊢
    · have : 0 < m := Nat.pos_of_ne_zero h0
      simp [this, h0]

theorem FP.addP_zero_right {f : Fmt} (p : Nat) (s t : Bool) {n : Nat}
    (hr : FP.Rep p n) (hn : n < 2 ^ f.top) :
    FP.addP p (FP.fin s n : FP f) (FP.fin t 0) =
      if n = 0 then FP.fin (s && t) 0 else FP.fin s n := by
  have hx := FP.roundP_exact f p s n 1 (by decide) hr hn
  rw [Nat.mul_one] at hx
  unfold FP.addP
  by_cases hst : s = t
  · subst hst
    simp only [if_true, Nat.add_zero, hx]
    split
    · next h => subst h; simp
    · rfl
  · simp only [hst, if_false, Nat.not_lt_zero, Nat.sub_zero, hx]
    by_cases h0 : n = 0
    · subst h0
      cases s <;> cases t <;> simp at hst ⊢
    · have : 0 < n := Nat.pos_of_ne_zero h0
      simp [this, h0]

theorem widen_eq_zero (ev : Fmt) (n : Nat) : widen ev n = 0 ↔ n = 0 := by
  unfold widen
  have : (2 : Nat) ^ (ev.scale - 149) ≠ 0 := (Nat.two_pow_pos _).ne'
  simp [this]

theorem FP.cvt_zero {f : Fmt} (g : Fmt) (s : Bool) :
    FP.cvt g (FP.fin s 0 : FP f) = FP.fin s 0 := by
  show FP.roundP g g.prec s (0 * 2 ^ g.scale) (2 ^ f.scale) = _
  rw [Nat.zero_mul, FP.roundP_zero]

theorem one_lt_top : (2 : Nat) ^ 149 < 2 ^ binary32.top :=
  Nat.pow_lt_pow_right (by decide) (by decide)

theorem float_one : FP.cvt binary32 (1.0 : F64) = FP.fin false (2 ^ 149) := by decide!

theorem float_zero : FP.cvt binary32 (0.0 : F64) = FP.fin false 0 := by decide!

theorem lerp_at_one {ev : Eval} (hev : ev.Wide) {s0 s1 : Bool} {n0 n1 : Nat}
    (h0 : (FP.fin s0 n0 : F32).IsFinite) (h1 : (FP.fin s1 n1 : F32).IsFinite) :
    lerp ev (FP.fin s0 n0) (FP.fin s1 n1) (FP.fin false (2 ^ 149)) =
      if n1 = 0 then FP.fin (s0 && s1) 0 else FP.fin s1 n1 := by
  unfold lerp
  rw [FP.cvt_widen hev false rep_one one_lt_top, widen_one hev, FP.cvt_widen hev s0 h0.1 h0.2,
    FP.cvt_widen hev s1 h1.1 h1.2, FP.ofInt_one hev]
  have hsub : FP.sub (FP.fin false (2 ^ ev.scale) : FP ev) (FP.fin false (2 ^ ev.scale)) =
      FP.fin false 0 := by
    simp [FP.sub, FP.neg, FP.addP]
  rw [hsub]
  unfold FP.mul FP.add
  rw [FP.mulP_zero_left, FP.mulP_one_left _ _ (widen_rep hev h1.1) (widen_lt hev h1.2),
    FP.addP_zero_left _ _ _ (widen_rep hev h1.1) (widen_lt hev h1.2), Bool.false_xor]
  by_cases hz : n1 = 0
  · subst hz
    simp [(widen_eq_zero ev 0).mpr rfl, FP.cvt_zero]
  · have : widen ev n1 ≠ 0 := fun h => hz ((widen_eq_zero ev n1).mp h)
    simp only [this, hz, if_false]
    exact FP.cvt_narrow hev s1 h1.1 h1.2

theorem lerp_at_zero {ev : Eval} (hev : ev.Wide) {s0 s1 : Bool} {n0 n1 : Nat}
    (h0 : (FP.fin s0 n0 : F32).IsFinite) (h1 : (FP.fin s1 n1 : F32).IsFinite) :
    lerp ev (FP.fin s0 n0) (FP.fin s1 n1) (FP.fin false 0) =
      if n0 = 0 then FP.fin (s0 && s1) 0 else FP.fin s0 n0 := by
  unfold lerp
  rw [FP.cvt_zero, FP.cvt_widen hev s0 h0.1 h0.2,
    FP.cvt_widen hev s1 h1.1 h1.2, FP.ofInt_one hev]
  have hpos : 0 < 2 ^ ev.scale := Nat.two_pow_pos _
  have hone := FP.roundP_exact ev ev.prec false (2 ^ ev.scale) 1 (by decide)
    (by rw [← widen_one hev]; exact widen_rep hev rep_one)
    (by rw [← widen_one hev]; exact widen_lt hev one_lt_top)
  rw [Nat.mul_one] at hone
  have hsub : FP.sub (FP.fin false (2 ^ ev.scale) : FP ev) (FP.fin false 0) =
      FP.fin false (2 ^ ev.scale) := by
    simp [FP.sub, FP.neg, FP.addP, hpos, hone]
  rw [hsub]
  unfold FP.mul FP.add
  rw [FP.mulP_zero_left, FP.mulP_one_left _ _ (widen_rep hev h0.1) (widen_lt hev h0.2),
    Bool.false_xor, FP.addP_zero_right _ _ _ (widen_rep hev h0.1) (widen_lt hev h0.2)]
  by_cases hz : n0 = 0
  · subst hz
    simp [(widen_eq_zero ev 0).mpr rfl, FP.cvt_zero]
  · have : widen ev n0 ≠ 0 := fun h => hz ((widen_eq_zero ev n0).mp h)
    simp only [this, hz, if_false]
    exact FP.cvt_narrow hev s0 h0.1 h0.2

/-- C6 (as amended): for every evaluation format at least as wide as `float` and
all finite `v0`, `v1`, `lerp(v0, v1, 1.0) == v1` and `lerp(v0, v1, 0.0) == v0`
hold under the C comparison, and the results are bit-for-bit `v1` and `v0`
whenever that expected value is not a zero. -/
theorem lerp_endpoints (ev : Eval) (hev : ev.Wide) (v0 v1 : F32)
    (h0 : v0.IsFinite) (h1 : v1.IsFinite) :
    FP.eq (lerp ev v0 v1 (FP.cvt binary32 (1.0 : F64))) v1 = true ∧
    FP.eq (lerp ev v0 v1 (FP.cvt binary32 (0.0 : F64))) v0 = true ∧
    (¬ v1.IsZero → lerp ev v0 v1 (FP.cvt binary32 (1.0 : F64)) = v1) ∧
    (¬ v0.IsZero → lerp ev v0 v1 (FP.cvt binary32 (0.0 : F64)) = v0) := by
  rw [float_one, float_zero]
  cases v0 with
  | nan => exact False.elim h0
  | inf s => exact False.elim h0
  | fin s0 n0 =>
    cases v1 with
    | nan => exact False.elim h1
    | inf s => exact False.elim h1
    | fin s1 n1 =>
      rw [lerp_at_one hev h0 h1, lerp_at_zero hev h0 h1]
      refine ⟨?_, ?_, ?_, ?_⟩
      · by_cases hz : n1 = 0 <;> simp [hz, FP.eq]
      · by_cases hz : n0 = 0 <;> simp [hz, FP.eq]
      · intro hz
        have : n1 ≠ 0 := hz
        simp [this]
      · intro hz
        have : n0 ≠ 0 := hz
        simp [this]

/-- Witness for C6 (as amended): `v0 = 1.0`, `v1 = -0.0` evaluated in x87
double-extended precision. -/
theorem lerp_endpoints_witness :
    FP.eq (lerp x87ext (FP.fin false (2 ^ 149)) (FP.fin true 0)
      (FP.cvt binary32 (1.0 : F64))) (FP.fin true 0) = true :=
  (lerp_endpoints x87ext ⟨by decide, by decide, by decide⟩
    (FP.fin false (2 ^ 149)) (FP.fin true 0)
    ⟨rep_one, one_lt_top⟩ ⟨⟨0, 0, by decide, by decide⟩, Nat.two_pow_pos _⟩).1

/-- C6 as stated fails: with `v0 = 1.0` and `v1 = -0.0`, both finite,
`lerp(v0, v1, 1.0)` is `+0.0`, which is not bit-for-bit `v1`; and with
`v0 = -0.0`, `v1 = 1.0`, `lerp(v0, v1, 0.0)` is `+0.0`, not `v0`. -/
theorem lerp_not_bit_exact :
    (FP.fin false (2 ^ 149) : F32).IsFinite ∧ (FP.fin true 0 : F32).IsFinite ∧
    lerp binary32 (FP.fin false (2 ^ 149)) (FP.fin true 0) (FP.cvt binary32 (1.0 : F64)) =
      FP.fin false 0 ∧
    lerp binary32 (FP.fin false (2 ^ 149)) (FP.fin true 0) (FP.cvt binary32 (1.0 : F64)) ≠
      FP.fin true 0 ∧
    lerp binary32 (FP.fin true 0) (FP.fin false (2 ^ 149)) (FP.cvt binary32 (0.0 : F64)) ≠
      FP.fin true 0 := by
  have e1 : lerp binary32 (FP.fin false (2 ^ 149)) (FP.fin true 0)
      (FP.cvt binary32 (1.0 : F64)) = FP.fin false 0 := by decide!
  have e2 : lerp binary32 (FP.fin true 0) (FP.fin false (2 ^ 149))
      (FP.cvt binary32 (0.0 : F64)) = FP.fin false 0 := by decide!
  refine ⟨⟨rep_one, one_lt_top⟩, ⟨⟨0, 0, by decide, by decide⟩, Nat.two_pow_pos _⟩, e1, ?_, ?_⟩
  · rw [e1]; simp
  · rw [e2]; simp

theorem isNaNOrInfinity_nan (ev : Eval) : isNaNOrInfinity ev FP.nan = true := by
  simp [isNaNOrInfinity, FP.cvt, FP.mul, FP.mulP, FP.ne, FP.eq]

theorem isNaNOrInfinity_inf (ev : Eval) (s : Bool) : isNaNOrInfinity ev (FP.inf s) = true := by
  simp [isNaNOrInfinity, FP.cvt, FP.mul, FP.mulP, FP.ne, FP.eq, FP.ofInt_zero]

theorem mul_zero_of_finite {ev : Eval} (hev : ev.Wide) (s : Bool) {n : Nat}
    (h : (FP.fin s n : F32).IsFinite) :
    FP.mul (FP.cvt ev (FP.fin s n : F32)) (FP.ofInt ev 0) = FP.fin s 0 := by
  rw [FP.cvt_widen hev s h.1 h.2, FP.ofInt_zero]
  unfold FP.mul
  rw [FP.mulP_zero_right, Bool.xor_false]

theorem isNaNOrInfinity_fin {ev : Eval} (hev : ev.Wide) (s : Bool) {n : Nat}
    (h : (FP.fin s n : F32).IsFinite) : isNaNOrInfinity ev (FP.fin s n) = false := by
  unfold isNaNOrInfinity
  rw [mul_zero_of_finite hev s h, FP.ofInt_zero]
  simp [FP.ne, FP.eq]

theorem float_half : FP.cvt binary32 (0.5 : F64) = FP.fin false (2 ^ 148) := by decide!

theorem float_42 : FP.cvt binary32 (42.0 : F64) = FP.fin false (21 * 2 ^ 150) := by decide!

theorem finite_half : (FP.fin false (2 ^ 148) : F32).IsFinite :=
  ⟨⟨1, 148, by ring, by decide⟩, Nat.pow_lt_pow_right (by decide) (by decide)⟩

theorem finite_42 : (FP.fin false (21 * 2 ^ 150) : F32).IsFinite :=
  ⟨⟨21, 150, rfl, by decide⟩, by
    show 21 * 2 ^ 150 < 2 ^ 277
    calc 21 * 2 ^ 150 < 2 ^ 5 * 2 ^ 150 := Nat.mul_lt_mul_of_pos_right (by decide) (Nat.two_pow_pos _)
      _ = 2 ^ 155 := by rw [← pow_add]
      _ < 2 ^ 277 := Nat.pow_lt_pow_right (by decide) (by decide)⟩

/-- C7: in every evaluation format at least as wide as `float` and for every
`float` datum `v`: `isNaN(v)` is true iff `v` is a NaN; `isNaNOrInfinity(v)` is
true iff `v` is a NaN or an infinity; for finite `v` the product `v*0` is exactly
a zero; `isNotNaN` and `isNotNaNOrInfinity` are the complements; and
`isNaN(NaN)`, `isNaNOrInfinity(+Infinity)` are true while `isNaN(0.5)`,
`isNaNOrInfinity(42.0)` are false. -/
theorem validity_checks (ev : Eval) (hev : ev.Wide) (v : F32) (hv : v.WellFormed) :
    (isNaN ev v = true ↔ v.IsNaN) ∧
    (isNaNOrInfinity ev v = true ↔ v.IsNaN ∨ v.IsInf) ∧
    (v.IsFinite → ∃ s, FP.mul (FP.cvt ev v) (FP.ofInt ev 0) = FP.fin s 0) ∧
    isNotNaN ev v = !(isNaN ev v) ∧
    isNotNaNOrInfinity ev v = !(isNaNOrInfinity ev v) ∧
    isNaN ev FP.nan = true ∧
    isNaN ev (FP.cvt binary32 (0.5 : F64)) = false ∧
    isNaNOrInfinity ev (FP.inf false) = true ∧
    isNaNOrInfinity ev (FP.cvt binary32 (42.0 : F64)) = false := by
  refine ⟨isNaN_iff ev v, ?_, ?_, ?_, ?_, ?_, ?_, isNaNOrInfinity_inf ev false, ?_⟩
  · cases v with
    | nan => simp [isNaNOrInfinity_nan, FP.IsNaN]
    | inf s => simp [isNaNOrInfinity_inf, FP.IsInf]
    | fin s n =>
      have hf : (FP.fin s n : F32).IsFinite := hv
      simp [isNaNOrInfinity_fin hev s hf, FP.IsNaN, FP.IsInf]
  · cases v with
    | nan => intro h; exact False.elim h
    | inf s => intro h; exact False.elim h
    | fin s n => intro h; exact ⟨s, mul_zero_of_finite hev s h⟩
  · simp [isNotNaN, isNaN, FP.ne]
  · simp [isNotNaNOrInfinity, isNaNOrInfinity, FP.ne]
  · exact (isNaN_iff ev FP.nan).mpr trivial
  · rw [float_half]
    cases h : isNaN ev (FP.fin false (2 ^ 148))
    · rfl
    · exact False.elim ((isNaN_iff ev _).mp h)
  · rw [float_42]
    exact isNaNOrInfinity_fin hev false finite_42

/-- Witness for C7: the datum `0.5` under x87 double-extended evaluation. -/
theorem validity_checks_witness :
    (isNaN x87ext (FP.fin false (2 ^ 148)) = true ↔ (FP.fin false (2 ^ 148) : F32).IsNaN) :=
  (validity_checks x87ext ⟨by decide, by decide, by decide⟩ (FP.fin false (2 ^ 148))
    finite_half).1

/-! ## The x87 routine and the trial blocks -/

theorem forLoop_succ (n : Nat) (body : Int → State → Option State) (s : State) :
    forLoop (n + 1) body s = (forLoop n body s).bind (body (n : Int)) := by
  unfold forLoop
  rw [List.range_succ, List.foldlM_append]
  cases h : List.foldlM (fun s (i : Nat) => body (i : Int) s) s (List.range n) <;> simp [h]

theorem forLoop_zero (body : Int → State → Option State) (s : State) :
    forLoop 0 body s = some s := rfl

/-- A loop whose body sets `f` and appends calls, leaving the stack alone. -/
theorem forLoop_spec (body : Int → State → Option State) (g : Int → F32)
    (c : Int → List Call) (st : List X80) :
    ∀ n : Nat, (∀ i : Nat, i < n → ∀ f cs, body i ⟨f, st, cs⟩ = some ⟨g i, st, cs ++ c i⟩) →
      ∀ f cs, forLoop n body ⟨f, st, cs⟩ =
        some ⟨if n = 0 then f else g ((n - 1 : Nat) : Int), st,
          cs ++ ((List.range n).map fun (i : Nat) => c (i : Int)).flatten⟩
  | 0, _, f, cs => by simp [forLoop_zero]
  | n + 1, h, f, cs => by
    rw [forLoop_succ, forLoop_spec body g c st n (fun i hi => h i (by omega))]
    simp [h n (by omega), List.range_succ, List.append_assoc]

theorem FP.ofInt_small (f : Fmt) (k : Nat) (hk : k < 2 ^ f.prec)
    (ht : k * 2 ^ f.scale < 2 ^ f.top) :
    FP.ofInt f (k : Int) = FP.fin false (k * 2 ^ f.scale) := by
  have hneg : decide ((k : Int) < 0) = false := by simp
  show FP.roundP f f.prec (decide ((k : Int) < 0)) ((k : Int).natAbs * 2 ^ f.scale) 1 = _
  rw [hneg, Int.natAbs_ofNat]
  have := FP.roundP_exact f f.prec false (k * 2 ^ f.scale) 1 (by decide) ⟨k, f.scale, rfl, hk⟩ ht
  rwa [Nat.mul_one] at this

theorem small_lt (k a b c : Nat) (hk : k < 2 ^ a) (h : a + b ≤ c) : k * 2 ^ b < 2 ^ c :=
  calc k * 2 ^ b < 2 ^ a * 2 ^ b := Nat.mul_lt_mul_of_pos_right hk (Nat.two_pow_pos _)
    _ = 2 ^ (a + b) := by rw [pow_add]
    _ ≤ 2 ^ c := Nat.pow_le_pow_right (by decide) h

theorem widen_shift {ev : Fmt} (hev : ev.Wide) (k : Nat) :
    widen ev (k * 2 ^ 149) = k * 2 ^ ev.scale := by
  have h := widen_mul hev (k * 2 ^ 149)
  have h2 : (0 : Nat) < 2 ^ 149 := Nat.two_pow_pos _
  have h3 : k * 2 ^ ev.scale * 2 ^ 149 = widen ev (k * 2 ^ 149) * 2 ^ 149 := by
    rw [← h]; ring
  exact (Nat.eq_of_mul_eq_mul_right h2 h3).symm

theorem x87ext_wide : x87ext.Wide := ⟨by decide, by decide, by decide⟩

/-- Loading an integer of at most 24 bits with `fild` gives the same register
as converting it to `float` and loading that with `fld`. -/
theorem fild_eq_fld (k : Nat) (hk : k < 2 ^ 24) :
    FP.cvt x87ext (FP.ofInt binary32 (k : Int)) = FP.ofInt x87ext (k : Int) := by
  have hk32 : k * 2 ^ binary32.scale < 2 ^ binary32.top :=
    small_lt k 24 _ _ hk (by decide)
  have hk80 : k * 2 ^ x87ext.scale < 2 ^ x87ext.top :=
    small_lt k 24 _ _ hk (by decide)
  have hp : k < 2 ^ x87ext.prec :=
    lt_of_lt_of_le hk (Nat.pow_le_pow_right (by decide) (by decide))
  rw [FP.ofInt_small binary32 k hk hk32, FP.ofInt_small x87ext k hp hk80,
    FP.cvt_widen x87ext_wide false ⟨k, binary32.scale, rfl, hk⟩ hk32]
  exact congrArg (FP.fin false) (widen_shift x87ext_wide k)

theorem SinAsm_eq (u : FPU) (degree : F32) (s : State) (hs : s.st.length + 3 ≤ 8) :
    SinAsm u degree s =
      some { s with f := FP.cvt binary32 (u.fsin (sinArg u.pc degree)) } := by
  have h1 : s.st.length < 8 := by omega
  have h2 : s.st.length + 1 < 8 := by omega
  have h3 : s.st.length + 1 + 1 < 8 := by omega
  simp [SinAsm, run, Instr.exec, push, sinArg, h1, h2, h3]

theorem inlineFsin_eq_SinAsm (u : FPU) (i : Int) (h0 : 0 ≤ i) (h1 : i ≤ 89) :
    inlineFsin u i = SinAsm u (FP.ofInt binary32 i) := by
  obtain ⟨k, rfl⟩ := Int.eq_ofNat_of_zero_le h0
  have hk : k < 2 ^ 24 := by
    have : k ≤ 89 := by omega
    exact lt_of_le_of_lt this (by decide)
  funext s
  simp only [inlineFsin, SinAsm, run, Instr.exec, rightAngleX2, two_right_angles, fild_eq_fld k hk]

theorem flatten_singletons (c : Int → Call) (n : Nat) :
    ((List.range n).map fun (i : Nat) => [c (i : Int)]).flatten =
      (List.range n).map fun (i : Nat) => c (i : Int) := by
  induction n with
  | zero => rfl
  | succ n ih => simp [List.range_succ, ih]

theorem flatten_const (l : List Call) (m : Nat) :
    ((List.range m).map fun (_ : Nat) => l).flatten = (List.replicate m l).flatten := by
  induction m with
  | zero => rfl
  | succ m ih => simp [List.range_succ, List.replicate_succ', ih]

/-- Two nested loops whose inner body sets `f` and makes one call. -/
theorem nested_spec (m : Nat) (hm : 0 < m) (body : Int → State → Option State)
    (g : Int → F32) (c : Int → Call) (st : List X80)
    (h : ∀ i : Nat, i < 90 → ∀ f cs, body i ⟨f, st, cs⟩ = some ⟨g i, st, cs ++ [c i]⟩)
    (f : F32) (cs : List Call) :
    forLoop m (fun _ => forLoop 90 body) ⟨f, st, cs⟩ =
      some ⟨g 89, st, cs ++ (List.replicate m (pass c)).flatten⟩ := by
  have hin : ∀ f cs, forLoop 90 body ⟨f, st, cs⟩ = some ⟨g 89, st, cs ++ pass c⟩ := by
    intro f cs
    rw [forLoop_spec body g (fun i => [c i]) st 90 h f cs, flatten_singletons]
    rfl
  rw [forLoop_spec (fun _ => forLoop 90 body) (fun _ => g 89) (fun _ => pass c) st m
    (fun _ _ f cs => hin f cs) f cs, flatten_const]
  have : m ≠ 0 := by omega
  simp [this]

theorem length_passes (m : Nat) (c : Int → Call) :
    (List.replicate m (pass c)).flatten.length = m * 90 := by
  induction m with
  | zero => simp
  | succ m ih => simp [List.replicate_succ, ih, pass]; ring

theorem mem_passes (m : Nat) (c : Int → Call) (x : Call)
    (hx : x ∈ (List.replicate m (pass c)).flatten) : ∃ a : Int, x = c a ∧ 0 ≤ a ∧ a ≤ 89 := by
  rw [List.mem_flatten] at hx
  obtain ⟨l, hl, hxl⟩ := hx
  rw [(List.mem_replicate.mp hl).2] at hxl
  obtain ⟨i, hi, rfl⟩ := List.mem_map.mp hxl
  exact ⟨i, rfl, by omega, by have := List.mem_range.mp hi; omega⟩

theorem fSineAt_89 : fSineAt 89 = some (FP.cvt binary32 (0.999848 : F64)) := by
  rw [fSineAt_eq]; decide!

theorem Sine_eq_fSineAt (FP_NAN a : Int) (h0 : 0 ≤ a) (h1 : a ≤ 89) :
    Sine FP_NAN a = fSineAt a := by
  have h2 : a ≥ 0 ∧ a ≤ 89 := ⟨h0, h1⟩
  simp [Sine, Sine.call, h2]

theorem forLoop_map (n : Nat) (body : Int → State → Option State) (s : State) :
    forLoop n body s =
      ((List.range n).map fun (i : Nat) => (i : Int)).foldlM (fun s i => body i s) s := by
  unfold forLoop
  rw [List.foldlM_map]

/-- Two nested loops run their body once for each value of the inner variable,
in order, for each outer repetition: the body is run on the flattened list. -/
theorem loops_flat (m n : Nat) (body : Int → State → Option State) (s : State) :
    forLoop m (fun _ => forLoop n body) s =
      (List.replicate m ((List.range n).map fun (i : Nat) => (i : Int))).flatten.foldlM
        (fun s i => body i s) s := by
  induction m with
  | zero => rfl
  | succ m ih =>
    rw [forLoop_succ, ih, List.replicate_succ', List.flatten_append, List.foldlM_append]
    cases h : List.foldlM (fun s i => body i s) s
      (List.replicate m ((List.range n).map fun (i : Nat) => (i : Int))).flatten
    · simp [h]
    · simp [h, forLoop_map]

theorem degrees_map (m : Nat) (c : Int → Call) :
    (degrees m).map c = (List.replicate m (pass c)).flatten := by
  unfold degrees pass
  rw [List.map_flatten, List.map_replicate, List.map_map]
  rfl

theorem length_degrees (m : Nat) : (degrees m).length = m * 90 := by
  have h := congrArg List.length (degrees_map m Call.sinAsm)
  rw [List.length_map, length_passes] at h
  exact h

theorem mem_degrees (m : Nat) (a : Int) (ha : a ∈ degrees m) : 0 ≤ a ∧ a ≤ 89 := by
  unfold degrees at ha
  rw [List.mem_flatten] at ha
  obtain ⟨l, hl, hal⟩ := ha
  rw [(List.mem_replicate.mp hl).2] at hal
  obtain ⟨i, hi, rfl⟩ := List.mem_map.mp hal
  have := List.mem_range.mp hi
  exact ⟨by omega, by omega⟩

theorem Sine.call_of_range (FP_NAN a : Int) (h0 : 0 ≤ a) (h1 : a ≤ 89) :
    Sine.call FP_NAN a = ⟨[a], fSineAt a⟩ := by
  have h2 : a ≥ 0 ∧ a ≤ 89 := ⟨h0, h1⟩
  simp [Sine.call, h2]

theorem Sine.invoke_eq (FP_NAN a : Int) (s : State) :
    Sine.invoke FP_NAN a s = (Sine FP_NAN a).map fun v =>
      (v, { s with calls := s.calls ++ [Call.sine a (Sine.call FP_NAN a)] }) := rfl

theorem sineBlock_eq (FP_NAN : Int) (s : State) :
    sineBlock (Sine.invoke FP_NAN) s = some ⟨FP.cvt binary32 (0.999848 : F64), s.st,
      s.calls ++ (degrees 1000).map fun a => Call.sine a ⟨[a], fSineAt a⟩⟩ := by
  have h := nested_spec 1000 (by decide)
    (fun i s => (Sine.invoke FP_NAN i s).map fun r => { r.2 with f := r.1 })
    (fun i => (fSineAt i).getD FP.nan) (fun a => Call.sine a ⟨[a], fSineAt a⟩) s.st (by
      intro i hi f cs
      obtain ⟨v, hv, -⟩ := fSineAt_of_range i (by omega) (by omega)
      beta_reduce
      rw [Sine.invoke, Sine.call_of_range FP_NAN i (by omega) (by omega), hv]
      rfl) s.f s.calls
  simp only [fSineAt_89, Option.getD_some] at h
  rw [degrees_map]
  exact h

theorem libBlock_eq (sin : F64 → F64) (s : State) :
    libBlock (libSin sin) s = some ⟨FP.cvt binary32 (sin (FP.ofInt binary64 89)), s.st,
      s.calls ++ (degrees 10000).map fun a =>
        Call.libSin (FP.ofInt binary64 a) (sin (FP.ofInt binary64 a))⟩ := by
  have h := nested_spec 10000 (by decide)
    (fun i (s : State) => (libSin sin (FP.ofInt binary64 i) s).map fun r =>
      ({ r.2 with f := FP.cvt binary32 r.1 } : State))
    (fun i => FP.cvt binary32 (sin (FP.ofInt binary64 i)))
    (fun a => Call.libSin (FP.ofInt binary64 a) (sin (FP.ofInt binary64 a))) s.st
    (by intro i hi f cs; rfl) s.f s.calls
  rw [degrees_map]
  exact h

theorem sinAsmBlock_eq (u : FPU) (s : State) (hs : s.st.length + 3 ≤ 8) :
    sinAsmBlock u s = some ⟨FP.cvt binary32 (u.fsin (sinArg u.pc (FP.ofInt binary32 89))), s.st,
      s.calls ++ (List.replicate 1000 (pass Call.sinAsm)).flatten⟩ :=
  nested_spec 1000 (by decide)
    (fun i s => SinAsm u (FP.ofInt binary32 i) (logCall (.sinAsm i) s))
    (fun i => FP.cvt binary32 (u.fsin (sinArg u.pc (FP.ofInt binary32 i)))) Call.sinAsm s.st
    (fun i _ f cs => SinAsm_eq u _ (logCall (.sinAsm i) ⟨f, s.st, cs⟩) hs) s.f s.calls

theorem inlineBlock_eq (u : FPU) (s : State) (hs : s.st.length + 3 ≤ 8) :
    inlineBlock u s = some ⟨FP.cvt binary32 (u.fsin (sinArg u.pc (FP.ofInt binary32 89))), s.st,
      s.calls ++ (List.replicate 1000 (pass Call.inlineFsin)).flatten⟩ :=
  nested_spec 1000 (by decide)
    (fun i s => inlineFsin u i (logCall (.inlineFsin i) s))
    (fun i => FP.cvt binary32 (u.fsin (sinArg u.pc (FP.ofInt binary32 i)))) Call.inlineFsin s.st
    (fun i hi f cs => by
      beta_reduce
      rw [inlineFsin_eq_SinAsm u i (by omega) (by omega)]
      exact SinAsm_eq u _ (logCall (.inlineFsin i) ⟨f, s.st, cs⟩) hs) s.f s.calls

/-- C9: whatever routine is called as `Sine`, the table trial block runs
`f = Sine( i )` once for each member of the list 0..89 repeated 1000 times, in
order, and nothing else: exactly 1000*90 = 90000 calls, every one with
an argument in 0..89.  With the routine `Sine` of the program the block ends
normally, the calls that `Sine` recorded are those 90000, each a read of the
table at its argument that returned the entry (the `else` branch is never
taken), and the value left in `f` is `Sine(89) = fSine[89]`, the constant
0.999848 as a `float`.  Likewise the library block runs `f = sin( i )` once for
each member of 0..89 repeated 10000 times, 900000 calls. -/
theorem trial_blocks :
    (∀ (callSine : Int → State → Option (F32 × State)) (s : State),
      sineBlock callSine s =
        (degrees 1000).foldlM
          (fun s i => (callSine i s).map fun r => { r.2 with f := r.1 }) s) ∧
    (degrees 1000).length = 90000 ∧
    (∀ a ∈ degrees 1000, 0 ≤ a ∧ a ≤ 89) ∧
    (∀ (FP_NAN a : Int) (s : State),
      Sine.invoke FP_NAN a s = (Sine FP_NAN a).map fun v =>
        (v, { s with calls := s.calls ++ [Call.sine a (Sine.call FP_NAN a)] })) ∧
    (∀ (FP_NAN : Int) (s : State), ∃ s1 : State,
      sineBlock (Sine.invoke FP_NAN) s = some s1 ∧
      s1.calls = s.calls ++ (degrees 1000).map (fun a => Call.sine a ⟨[a], fSineAt a⟩) ∧
      (∀ a ∈ degrees 1000, ∃ v, fSineAt a = some v ∧ Sine.call FP_NAN a = ⟨[a], some v⟩) ∧
      s1.f = FP.cvt binary32 (0.999848 : F64) ∧
      Sine FP_NAN 89 = some s1.f ∧
      fSine[89]? = some s1.f ∧
      s1.st = s.st) ∧
    (∀ (callSin : F64 → State → Option (F64 × State)) (s : State),
      libBlock callSin s =
        (degrees 10000).foldlM
          (fun s i => (callSin (FP.ofInt binary64 i) s).map fun r =>
            { r.2 with f := FP.cvt binary32 r.1 }) s) ∧
    (degrees 10000).length = 900000 ∧
    (∀ a ∈ degrees 10000, 0 ≤ a ∧ a ≤ 89) ∧
    (∀ (sin : F64 → F64) (s : State), ∃ s2 : State,
      libBlock (libSin sin) s = some s2 ∧
      s2.calls = s.calls ++ (degrees 10000).map (fun a =>
        Call.libSin (FP.ofInt binary64 a) (sin (FP.ofInt binary64 a))) ∧
      s2.f = FP.cvt binary32 (sin (FP.ofInt binary64 89)) ∧
      s2.st = s.st) := by
  refine ⟨fun callSine s => loops_flat 1000 90 _ s,
    (length_degrees 1000).trans (by norm_num), mem_degrees 1000,
    fun FP_NAN a s => Sine.invoke_eq FP_NAN a s, ?_,
    fun callSin s => loops_flat 10000 90 _ s,
    (length_degrees 10000).trans (by norm_num), mem_degrees 10000, ?_⟩
  · intro FP_NAN s
    refine ⟨_, sineBlock_eq FP_NAN s, rfl, ?_, by dsimp only, ?_, ?_, rfl⟩
    · intro a ha
      obtain ⟨h0, h1⟩ := mem_degrees 1000 a ha
      obtain ⟨v, hv, -⟩ := fSineAt_of_range a h0 h1
      exact ⟨v, hv, by rw [Sine.call_of_range FP_NAN a h0 h1, hv]⟩
    · rw [Sine_eq_fSineAt FP_NAN 89 (by decide) (by decide), fSineAt_89]
    · have := fSineAt_89
      simpa [fSineAt] using this
  · intro sin s
    exact ⟨_, libBlock_eq sin s, rfl, rfl, rfl⟩

/-- C10: for every degree `i` in 0..89 the inline statement and the call
`SinAsm(i)` are the same state transformer; from a state with three free
registers both store the same value in `f` and leave the register stack and every
other component of the state as they were, and the two trial blocks end with the
same `f`. -/
theorem hardware_entry_points_agree (u : FPU) (i : Int) (h0 : 0 ≤ i) (h1 : i ≤ 89)
    (s : State) (hs : s.st.length + 3 ≤ 8) :
    inlineFsin u i s = SinAsm u (FP.ofInt binary32 i) s ∧
    SinAsm u (FP.ofInt binary32 i) s =
      some { s with f := FP.cvt binary32 (u.fsin (sinArg u.pc (FP.ofInt binary32 i))) } ∧
    ∃ a b : State, inlineBlock u s = some a ∧ sinAsmBlock u s = some b ∧
      a.f = b.f ∧ a.st = s.st ∧ b.st = s.st :=
  ⟨by rw [inlineFsin_eq_SinAsm u i h0 h1], SinAsm_eq u _ s hs,
    _, _, inlineBlock_eq u s hs, sinAsmBlock_eq u s hs, rfl, rfl, rfl⟩

/-- Witness for C10: degree 45 from an empty register stack, with a unit whose
`fsin` is the identity. -/
theorem hardware_entry_points_agree_witness :
    inlineFsin ⟨64, id⟩ 45 ⟨FP.nan, [], []⟩ =
      SinAsm ⟨64, id⟩ (FP.ofInt binary32 45) ⟨FP.nan, [], []⟩ :=
  (hardware_entry_points_agree ⟨64, id⟩ 45 (by decide) (by decide) ⟨FP.nan, [], []⟩
    (by decide)).1

/-! ## Accuracy of the x87 routine -/

theorem rne_err (n d : Nat) (hd : 0 < d) :
    2 * (rne n d * d) ≤ 2 * n + d ∧ 2 * n ≤ 2 * (rne n d * d) + d := by
  have h1 := Nat.div_add_mod n d
  have h2 := Nat.mod_lt n hd
  have h3 : (n / d + 1) * d = d * (n / d) + d := by ring
  have h4 : n / d * d = d * (n / d) := Nat.mul_comm _ _
  unfold rne
  simp only []
  split_ifs <;> simp only [h3, h4] <;> omega

theorem roundMag_err (p n d k : Nat) (hd : 0 < d) (hk : n / d / 2 ^ k < 2 ^ p) :
    2 * (roundMag p n d * d) ≤ 2 * n + d * 2 ^ k ∧
    2 * n ≤ 2 * (roundMag p n d * d) + d * 2 ^ k := by
  have hsh := excessBits_le p (n / d) (n / d) k hk
  unfold roundMag
  simp only []
  generalize excessBits p (n / d) (n / d) = sh at hsh
  have hD : 0 < d * 2 ^ sh := Nat.mul_pos hd (Nat.two_pow_pos _)
  have h := rne_err n (d * 2 ^ sh) hD
  have hle : d * 2 ^ sh ≤ d * 2 ^ k :=
    Nat.mul_le_mul_left d (Nat.pow_le_pow_right (by decide) hsh)
  have e : rne n (d * 2 ^ sh) * 2 ^ sh * d = rne n (d * 2 ^ sh) * (d * 2 ^ sh) := by ring
  rw [e]
  omega

theorem abs_sin_sub_sin_le (x y : ℝ) : |Real.sin x - Real.sin y| ≤ |x - y| := by
  rw [Real.sin_sub_sin]
  have h1 : |Real.sin ((x - y) / 2)| ≤ |(x - y) / 2| := Real.abs_sin_le_abs
  have h2 : |Real.cos ((x + y) / 2)| ≤ 1 := Real.abs_cos_le_one _
  have h3 : |(x - y) / 2| = |x - y| / 2 := by rw [abs_div]; norm_num
  rw [abs_mul, abs_mul]
  have h4 : |(2 : ℝ)| = 2 := by norm_num
  rw [h4]
  have h5 := abs_nonneg (Real.sin ((x - y) / 2))
  have h6 := abs_nonneg (Real.cos ((x + y) / 2))
  nlinarith

theorem abs_cos_sub_cos_le (x y : ℝ) : |Real.cos x - Real.cos y| ≤ |x - y| := by
  rw [Real.cos_sub_cos]
  have h1 : |Real.sin ((x - y) / 2)| ≤ |(x - y) / 2| := Real.abs_sin_le_abs
  have h2 : |Real.sin ((x + y) / 2)| ≤ 1 := Real.abs_sin_le_one _
  have h3 : |(x - y) / 2| = |x - y| / 2 := by rw [abs_div]; norm_num
  rw [abs_mul, abs_mul]
  have h4 : |(-2 : ℝ)| = 2 := by norm_num
  rw [h4]
  have h5 := abs_nonneg (Real.sin ((x - y) / 2))
  have h6 := abs_nonneg (Real.sin ((x + y) / 2))
  nlinarith

theorem FP.toRat_fin {f : Fmt} (s : Bool) (n : Nat) :
    FP.toRat (FP.fin s n : FP f) = (if s then -(n : ℚ) else (n : ℚ)) / 2 ^ f.scale := by
  cases s <;> simp [FP.toRat, FP.sval]

/-- Narrowing a register of magnitude at most 2 to `float` gives a finite
datum within `2 ^ (-23)` of it. -/
theorem narrow_err (g : Fmt) (s : Bool) (n : Nat) (hn : n ≤ 2 * 2 ^ g.scale) :
    ∃ m, FP.cvt binary32 (FP.fin s n : FP g) = FP.fin s m ∧
      |FP.toRat (FP.fin s m : F32) - FP.toRat (FP.fin s n : FP g)| ≤ 1 / 2 ^ 23 := by
  have hD : 0 < 2 ^ g.scale := Nat.two_pow_pos _
  generalize hDe : 2 ^ g.scale = D at hn hD
  have hk : n * 2 ^ 149 / D / 2 ^ 127 < 2 ^ 24 := by
    rw [Nat.div_div_eq_div_mul]
    apply Nat.div_lt_of_lt_mul
    norm_num
    omega
  obtain ⟨h1, h2⟩ := roundMag_err 24 (n * 2 ^ 149) D 127 hD hk
  generalize hm : roundMag 24 (n * 2 ^ 149) D = m at h1 h2
  have hlt : m < 2 ^ 277 := by
    by_contra hc
    have h3 : 2 ^ 277 * D ≤ m * D := Nat.mul_le_mul_right D (Nat.le_of_not_lt hc)
    norm_num at h1 h3
    omega
  refine ⟨m, ?_, ?_⟩
  · show FP.roundP binary32 24 s (n * 2 ^ 149) (2 ^ g.scale) = _
    unfold FP.roundP
    rw [hDe]
    simp only [hm]
    exact if_pos hlt
  · have q1 : (2 * (m * D) : ℚ) ≤ 2 * (n * 2 ^ 149) + D * 2 ^ 127 := by exact_mod_cast h1
    have q2 : (2 * (n * 2 ^ 149) : ℚ) ≤ 2 * (m * D) + D * 2 ^ 127 := by exact_mod_cast h2
    have hDq : (0 : ℚ) < D := by exact_mod_cast hD
    have hDc : ((2 : ℚ) ^ g.scale) = D := by exact_mod_cast hDe
    have key : |(m : ℚ) * (D : ℚ) - (n : ℚ) * 2 ^ 149| ≤ (D : ℚ) * 2 ^ 126 := by
      rw [abs_le]
      constructor <;> norm_num at q1 q2 ⊢ <;> linarith
    have e : ∀ a b : ℚ, a / 2 ^ 149 - b / (D : ℚ) =
        (a * (D : ℚ) - b * 2 ^ 149) / (2 ^ 149 * (D : ℚ)) := by
      intro a b
      field_simp
      ring
    rw [FP.toRat_fin, FP.toRat_fin, hDc]
    show |_ / 2 ^ 149 - _| ≤ _
    rw [e, abs_div, abs_of_pos (by positivity : (0 : ℚ) < 2 ^ 149 * (D : ℚ)),
      div_le_div_iff₀ (by positivity) (by positivity)]
    have hA : (2 : ℚ) ^ 149 = 2 ^ 126 * 2 ^ 23 := by rw [← pow_add]
    have fin : |(m : ℚ) * (D : ℚ) - (n : ℚ) * 2 ^ 149| * 2 ^ 23 ≤ 1 * (2 ^ 149 * (D : ℚ)) :=
      calc |(m : ℚ) * (D : ℚ) - (n : ℚ) * 2 ^ 149| * 2 ^ 23
          ≤ ((D : ℚ) * 2 ^ 126) * 2 ^ 23 := mul_le_mul_of_nonneg_right key (by positivity)
        _ = 1 * (2 ^ 149 * (D : ℚ)) := by rw [hA]; ring
    cases s
    · simp only [Bool.false_eq_true, if_false]
      exact fin
    · simp only [if_true]
      have k3 : ∀ A : ℚ, (-(m : ℚ)) * (D : ℚ) - (-(n : ℚ)) * A =
          -((m : ℚ) * (D : ℚ) - (n : ℚ) * A) := fun A => by ring
      rw [k3, abs_neg]
      exact fin

theorem argOK_all (pc : Nat) (hpc : pc = 24 ∨ pc = 53 ∨ pc = 64) (d : Nat) (hd : d ≤ 90) :
    argOK pc d = true := by
  have h24 : (List.range 91).all (argOK 24) = true := by decide!
  have h53 : (List.range 91).all (argOK 53) = true := by decide!
  have h64 : (List.range 91).all (argOK 64) = true := by decide!
  have hm : d ∈ List.range 91 := List.mem_range.mpr (by omega)
  rcases hpc with rfl | rfl | rfl
  · exact List.all_eq_true.mp h24 d hm
  · exact List.all_eq_true.mp h53 d hm
  · exact List.all_eq_true.mp h64 d hm

theorem argOK_sound (pc d : Nat) (hd : d ≤ 90) (h : argOK pc d = true) :
    ∃ n, sinArg pc (FP.ofInt binary32 (d : Int)) = FP.fin false n ∧
      |((FP.toRat (FP.fin false n : X80) : ℚ) : ℝ) - d * Real.pi / 180| ≤ 2 / 10 ^ 6 := by
  unfold argOK at h
  split at h
  · rename_i n hn
    refine ⟨n, hn, ?_⟩
    simp only [Bool.and_eq_true, decide_eq_true_eq] at h
    obtain ⟨h1, h2⟩ := h
    have hD : 0 < 2 ^ x87ext.scale := Nat.two_pow_pos _
    rw [FP.toRat_fin]
    simp only [Bool.false_eq_true, if_false]
    have hc : (((n : ℚ) / 2 ^ x87ext.scale : ℚ) : ℝ) = (n : ℝ) / ((2 ^ x87ext.scale : ℕ) : ℝ) := by
      push_cast; rfl
    rw [hc]
    generalize 2 ^ x87ext.scale = D at h1 h2 hD ⊢
    have r1 : ((d : ℝ) * 3141592 * D) ≤ (n : ℝ) * 180 * 10 ^ 6 + 180 * D := by exact_mod_cast h1
    have r2 : ((n : ℝ) * 180 * 10 ^ 6) ≤ (d : ℝ) * 3141593 * D + 180 * D := by exact_mod_cast h2
    have hDr : (0 : ℝ) < D := by exact_mod_cast hD
    have hdr : (d : ℝ) ≤ 90 := by exact_mod_cast hd
    have hd0 : (0 : ℝ) ≤ d := Nat.cast_nonneg d
    have p1 := Real.pi_gt_d6
    have p2 := Real.pi_lt_d6
    have a1 : (d : ℝ) * 3141592 / (180 * 10 ^ 6) - 1 / 10 ^ 6 ≤ (n : ℝ) / D := by
      rw [le_div_iff₀ hDr]
      have : ((d : ℝ) * 3141592 / (180 * 10 ^ 6) - 1 / 10 ^ 6) * D =
          ((d : ℝ) * 3141592 * D - 180 * D) / (180 * 10 ^ 6) := by field_simp; ring
      rw [this, div_le_iff₀ (by positivity)]
      linarith
    have a2 : (n : ℝ) / D ≤ (d : ℝ) * 3141593 / (180 * 10 ^ 6) + 1 / 10 ^ 6 := by
      rw [div_le_iff₀ hDr]
      have : ((d : ℝ) * 3141593 / (180 * 10 ^ 6) + 1 / 10 ^ 6) * D =
          ((d : ℝ) * 3141593 * D + 180 * D) / (180 * 10 ^ 6) := by field_simp; ring
      rw [this, le_div_iff₀ (by positivity)]
      linarith
    have b1 : (d : ℝ) * 3141592 / (180 * 10 ^ 6) ≤ d * Real.pi / 180 := by
      have : (d : ℝ) * 3.141592 ≤ d * Real.pi := mul_le_mul_of_nonneg_left p1.le hd0
      norm_num at this ⊢
      linarith
    have b2 : (d : ℝ) * Real.pi / 180 ≤ d * 3141593 / (180 * 10 ^ 6) := by
      have : (d : ℝ) * Real.pi ≤ d * 3.141593 := mul_le_mul_of_nonneg_left p2.le hd0
      norm_num at this ⊢
      linarith
    rw [abs_le]
    constructor <;> norm_num at a1 a2 b1 b2 ⊢ <;> linarith
  · exact absurd h (by simp)

theorem mag_le_of_abs_le {f : Fmt} (s : Bool) (n : Nat)
    (h : |((FP.toRat (FP.fin s n : FP f) : ℚ) : ℝ)| ≤ 2) : n ≤ 2 * 2 ^ f.scale := by
  rw [FP.toRat_fin] at h
  have hD : (0 : ℝ) < ((2 ^ f.scale : ℕ) : ℝ) := by exact_mod_cast Nat.two_pow_pos f.scale
  have hn : (n : ℝ) / ((2 ^ f.scale : ℕ) : ℝ) ≤ 2 := by
    cases s
    · simp only [Bool.false_eq_true, if_false] at h
      push_cast at h ⊢
      exact (le_abs_self _).trans h
    · simp only [if_true] at h
      push_cast at h ⊢
      rw [neg_div, abs_neg] at h
      exact (le_abs_self _).trans h
  rw [div_le_iff₀ hD] at hn
  exact_mod_cast hn

/-- From a state with three free registers and an `fsin` accurate to
`2 ^ (-20)` at the argument, `SinAsm(d)` leaves in `f` a finite datum within
`10 ^ (-4)` of the sine of `d` degrees. -/
theorem SinAsm_accuracy (u : FPU) (hpc : u.pc = 24 ∨ u.pc = 53 ∨ u.pc = 64)
    (d : Nat) (hd : d ≤ 90) (s : State) (hs : s.st.length + 3 ≤ 8)
    (hsin : u.SinWithin (sinArg u.pc (FP.ofInt binary32 (d : Int))) (1 / 2 ^ 20)) :
    ∃ t m, SinAsm u (FP.ofInt binary32 (d : Int)) s = some { s with f := FP.fin t m } ∧
      (FP.fin t m : F32).IsFinite ∧
      |((FP.toRat (FP.fin t m : F32) : ℚ) : ℝ) - Real.sin (d * Real.pi / 180)| ≤ 1 / 10 ^ 4 := by
  obtain ⟨n, hn, harg⟩ := argOK_sound u.pc d hd (argOK_all u.pc hpc d hd)
  obtain ⟨⟨t, k, hk⟩, hacc⟩ := hsin
  rw [hk, hn] at hacc
  have hsin1 := Real.abs_sin_le_one ((FP.toRat (FP.fin false n : X80) : ℚ) : ℝ)
  have hy : |((FP.toRat (FP.fin t k : X80) : ℚ) : ℝ)| ≤ 2 := by
    have h1 := abs_sub_abs_le_abs_sub ((FP.toRat (FP.fin t k : X80) : ℚ) : ℝ)
      (Real.sin ((FP.toRat (FP.fin false n : X80) : ℚ) : ℝ))
    have : (1 : ℝ) / 2 ^ 20 ≤ 1 := by norm_num
    linarith
  obtain ⟨m, hm, herr⟩ := narrow_err x87ext t k (mag_le_of_abs_le t k hy)
  refine ⟨t, m, ?_, ?_, ?_⟩
  · rw [SinAsm_eq u _ s hs, hk, hm]
  · have hw := FP.cvt_wellFormed binary32 (by decide) (FP.fin t k : X80)
    rw [hm] at hw
    exact hw
  · have herrR : |((FP.toRat (FP.fin t m : F32) : ℚ) : ℝ) -
        ((FP.toRat (FP.fin t k : X80) : ℚ) : ℝ)| ≤ 1 / 2 ^ 23 := by
      have : ((|FP.toRat (FP.fin t m : F32) - FP.toRat (FP.fin t k : X80)| : ℚ) : ℝ) ≤
          ((1 / 2 ^ 23 : ℚ) : ℝ) := by exact_mod_cast herr
      simpa using this
    have hlip := (abs_sin_sub_sin_le ((FP.toRat (FP.fin false n : X80) : ℚ) : ℝ)
      (d * Real.pi / 180)).trans harg
    rw [abs_le] at herrR hacc hlip ⊢
    constructor <;> norm_num at herrR hacc hlip ⊢ <;> linarith

/-- The value pushed by `fldpi` is within half a unit in the last place,
`2 ^ (-63)`, of pi. -/
theorem piExt_nearest : |((FP.toRat piExt : ℚ) : ℝ) - Real.pi| ≤ 1 / 2 ^ 63 := by
  have key : ∀ a : ℕ, ((0xC90FDAA22168C235 * 2 ^ a : ℕ) : ℚ) / (2 ^ a * 2 ^ 62) =
      (0xC90FDAA22168C235 : ℚ) / 2 ^ 62 := by
    intro a
    have hp : (2 : ℚ) ^ a ≠ 0 := pow_ne_zero _ (by norm_num)
    push_cast
    rw [mul_comm ((2 : ℚ) ^ a) (2 ^ 62), mul_div_mul_right _ _ hp]
  have e : FP.toRat piExt = (0xC90FDAA22168C235 : ℚ) / 2 ^ 62 := by
    unfold piExt
    rw [FP.toRat_fin]
    simp only [Bool.false_eq_true, if_false]
    have hs : x87ext.scale = 16383 + 62 := rfl
    rw [hs, pow_add]
    exact key 16383
  rw [e]
  have p1 := Real.pi_gt_d20
  have p2 := Real.pi_lt_d20
  rw [abs_le]
  push_cast
  constructor <;> norm_num at p1 p2 ⊢ <;> linarith

/-- C8: with the precision control at 24, 53 or 64 bits, the constant of `fldpi`
is pi to 64 bits, and `SinAsm(degree)` run from a state with three free registers
stores in `f` the `fsin` of `(degree * pi) / 180` (the product is formed first
and divided by 180), narrowed to `float`, and changes nothing else; for the
integer degrees `d` in 0..90 the argument handed to `fsin` is within
`2 * 10 ^ (-6)` of `d * pi / 180`, and when
`fsin` is accurate to `2 ^ (-20)` there, `f` ends within `10 ^ (-4)` of the sine
of `d` degrees: of 0.0 for `d = 0` and of 1.0 for `d = 90`. -/
theorem SinAsm_stores_sine_of_degrees (u : FPU) (hpc : u.pc = 24 ∨ u.pc = 53 ∨ u.pc = 64) :
    |((FP.toRat piExt : ℚ) : ℝ) - Real.pi| ≤ 1 / 2 ^ 63 ∧
    (∀ (degree : F32) (s : State), s.st.length + 3 ≤ 8 →
      SinAsm u degree s = some { s with f := FP.cvt binary32 (u.fsin
        (FP.divP u.pc (FP.mulP u.pc (FP.cvt x87ext degree) piExt)
          (FP.cvt x87ext two_right_angles))) }) ∧
    (∀ d : Nat, d ≤ 90 →
      ∃ n, FP.divP u.pc (FP.mulP u.pc (FP.cvt x87ext (FP.ofInt binary32 (d : Int))) piExt)
          (FP.cvt x87ext two_right_angles) = FP.fin false n ∧
        |((FP.toRat (FP.fin false n : X80) : ℚ) : ℝ) - d * Real.pi / 180| ≤ 2 / 10 ^ 6) ∧
    (∀ (d : Nat) (s : State), d ≤ 90 → s.st.length + 3 ≤ 8 →
      u.SinWithin (sinArg u.pc (FP.ofInt binary32 (d : Int))) (1 / 2 ^ 20) →
      ∃ t m, SinAsm u (FP.ofInt binary32 (d : Int)) s = some { s with f := FP.fin t m } ∧
        (FP.fin t m : F32).IsFinite ∧
        |((FP.toRat (FP.fin t m : F32) : ℚ) : ℝ) - Real.sin (d * Real.pi / 180)| ≤ 1 / 10 ^ 4 ∧
        (d = 0 → |((FP.toRat (FP.fin t m : F32) : ℚ) : ℝ) - 0| ≤ 1 / 10 ^ 4) ∧
        (d = 90 → |((FP.toRat (FP.fin t m : F32) : ℚ) : ℝ) - 1| ≤ 1 / 10 ^ 4)) := by
  refine ⟨piExt_nearest, fun degree s hs => SinAsm_eq u degree s hs,
    fun d hd => argOK_sound u.pc d hd (argOK_all u.pc hpc d hd), ?_⟩
  intro d s hd hs hsin
  obtain ⟨t, m, h1, hf, h2⟩ := SinAsm_accuracy u hpc d hd s hs hsin
  refine ⟨t, m, h1, hf, h2, ?_, ?_⟩
  · intro h0
    subst h0
    simpa using h2
  · intro h90
    subst h90
    have e : ((90 : ℕ) : ℝ) * Real.pi / 180 = Real.pi / 2 := by push_cast; ring
    rw [e, Real.sin_pi_div_two] at h2
    exact h2

theorem sinArg_zero : sinArg 64 (FP.ofInt binary32 ((0 : ℕ) : Int)) = FP.fin false 0 := by
  decide!

/-- Witness for C8: degree 0 from an empty register stack, on a unit with 64-bit
precision whose `fsin` returns its argument (exact at zero). -/
theorem SinAsm_stores_sine_of_degrees_witness :
    ∃ t m, SinAsm ⟨64, id⟩ (FP.ofInt binary32 ((0 : ℕ) : Int)) ⟨FP.nan, [], []⟩ =
        some ⟨FP.fin t m, [], []⟩ ∧
      |((FP.toRat (FP.fin t m : F32) : ℚ) : ℝ) - 0| ≤ 1 / 10 ^ 4 := by
  have hsin : FPU.SinWithin ⟨64, id⟩ (sinArg 64 (FP.ofInt binary32 ((0 : ℕ) : Int)))
      (1 / 2 ^ 20) := by
    unfold FPU.SinWithin
    rw [sinArg_zero]
    refine ⟨⟨false, 0, rfl⟩, ?_⟩
    simp [FP.toRat, FP.sval]
  obtain ⟨t, m, h1, -, -, h3, -⟩ :=
    (SinAsm_stores_sine_of_degrees ⟨64, id⟩ (Or.inr (Or.inr rfl))).2.2.2 0 ⟨FP.nan, [], []⟩
      (by decide) (by decide) hsin
  exact ⟨t, m, h1, h3 rfl⟩

/-! ## Accuracy of the table -/

theorem table_entries_ok :
    (List.range 90).all (fun a => entryOK a (fSineMags.getD a 0)) = true := by decide!

theorem exp_I_taylor (x : ℝ) :
    (∑ m ∈ Finset.range 10, ((x : ℂ) * Complex.I) ^ m / (m.factorial : ℂ)) =
      ((1 - x ^ 2 / 2 + x ^ 4 / 24 - x ^ 6 / 720 + x ^ 8 / 40320 : ℝ) : ℂ) +
      ((x - x ^ 3 / 6 + x ^ 5 / 120 - x ^ 7 / 5040 + x ^ 9 / 362880 : ℝ) : ℂ) * Complex.I := by
  simp only [Finset.sum_range_succ, Finset.range_zero, Finset.sum_empty, mul_pow]
  have h2 : Complex.I ^ 2 = -1 := Complex.I_sq
  have h3 : Complex.I ^ 3 = -Complex.I := by rw [pow_succ, h2]; ring
  have h4 : Complex.I ^ 4 = 1 := by rw [pow_succ, h3]; ring_nf; rw [h2]; ring
  have h5 : Complex.I ^ 5 = Complex.I := by rw [pow_succ, h4]; ring
  have h6 : Complex.I ^ 6 = -1 := by rw [pow_succ, h5, ← sq, h2]
  have h7 : Complex.I ^ 7 = -Complex.I := by rw [pow_succ, h6]; ring
  have h8 : Complex.I ^ 8 = 1 := by rw [pow_succ, h7]; ring_nf; rw [h2]; ring
  have h9 : Complex.I ^ 9 = Complex.I := by rw [pow_succ, h8]; ring
  rw [h2, h3, h4, h5, h6, h7, h8, h9]
  simp only [Nat.factorial]
  push_cast
  ring

theorem sin_cos_taylor (x : ℝ) (hx : |x| ≤ 1) :
    |Real.sin x - (x - x ^ 3 / 6 + x ^ 5 / 120 - x ^ 7 / 5040 + x ^ 9 / 362880)| ≤
        11 / 36288000 ∧
    |Real.cos x - (1 - x ^ 2 / 2 + x ^ 4 / 24 - x ^ 6 / 720 + x ^ 8 / 40320)| ≤
        11 / 36288000 := by
  have habs : Complex.abs ((x : ℂ) * Complex.I) ≤ 1 := by simpa using hx
  have h := Complex.exp_bound habs (n := 10) (by decide)
  rw [exp_I_taylor] at h
  have hb : Complex.abs ((x : ℂ) * Complex.I) ^ 10 *
      (((Nat.succ 10 : ℕ) : ℝ) * (((Nat.factorial 10 : ℕ) : ℝ) * ((10 : ℕ) : ℝ))⁻¹) ≤
      11 / 36288000 := by
    have h1 : Complex.abs ((x : ℂ) * Complex.I) ^ 10 ≤ 1 :=
      pow_le_one₀ (Complex.abs.nonneg _) habs
    have h2 : (((Nat.succ 10 : ℕ) : ℝ) * (((Nat.factorial 10 : ℕ) : ℝ) * ((10 : ℕ) : ℝ))⁻¹) =
        11 / 36288000 := by
      norm_num [Nat.factorial]
    rw [h2]
    have : (0 : ℝ) ≤ 11 / 36288000 := by norm_num
    nlinarith
  have h' := h.trans hb
  set z := Complex.exp ((x : ℂ) * Complex.I) -
    (((1 - x ^ 2 / 2 + x ^ 4 / 24 - x ^ 6 / 720 + x ^ 8 / 40320 : ℝ) : ℂ) +
      ((x - x ^ 3 / 6 + x ^ 5 / 120 - x ^ 7 / 5040 + x ^ 9 / 362880 : ℝ) : ℂ) * Complex.I)
    with hz
  have him : z.im = Real.sin x - (x - x ^ 3 / 6 + x ^ 5 / 120 - x ^ 7 / 5040 + x ^ 9 / 362880) := by
    rw [hz, Complex.sub_im, Complex.exp_ofReal_mul_I_im, Complex.add_im, Complex.ofReal_im,
      Complex.mul_im, Complex.ofReal_re, Complex.ofReal_im, Complex.I_im, Complex.I_re]
    ring
  have hre : z.re = Real.cos x - (1 - x ^ 2 / 2 + x ^ 4 / 24 - x ^ 6 / 720 + x ^ 8 / 40320) := by
    rw [hz, Complex.sub_re, Complex.exp_ofReal_mul_I_re, Complex.add_re, Complex.ofReal_re,
      Complex.mul_re, Complex.ofReal_re, Complex.ofReal_im, Complex.I_im, Complex.I_re]
    ring
  exact ⟨him ▸ (Complex.abs_im_le_abs z).trans h', hre ▸ (Complex.abs_re_le_abs z).trans h'⟩

theorem near_of_cross (n T P Q den : ℝ) (hT : 0 < T) (hden : 0 < den)
    (h1 : n * den * 10 ^ 6 + Q * T * 10 ^ 6 ≤ P * T * 10 ^ 6 + 9 * T * den)
    (h2 : P * T * 10 ^ 6 ≤ n * den * 10 ^ 6 + Q * T * 10 ^ 6 + 9 * T * den) :
    |n / T - (P - Q) / den| ≤ 9 / 10 ^ 6 := by
  have e : n / T - (P - Q) / den = (n * den - (P - Q) * T) / (T * den) := by
    field_simp
    ring
  rw [e, abs_div, abs_of_pos (mul_pos hT hden), div_le_div_iff₀ (mul_pos hT hden) (by norm_num)]
  have h3 : |n * den - (P - Q) * T| ≤ 9 * (T * den) / 10 ^ 6 := by
    rw [abs_le]
    constructor
    · rw [neg_le, le_div_iff₀ (by norm_num)]; linarith
    · rw [le_div_iff₀ (by norm_num)]; linarith
  rw [le_div_iff₀ (by norm_num)] at h3
  linarith

theorem sinOK_sound (A q n : Nat) (hq : 0 < q) (h : sinOK A q n = true) :
    (A : ℝ) / q ≤ 1 ∧
    |(n : ℝ) / 2 ^ 149 - (((A : ℝ) / q) - ((A : ℝ) / q) ^ 3 / 6 + ((A : ℝ) / q) ^ 5 / 120 -
      ((A : ℝ) / q) ^ 7 / 5040 + ((A : ℝ) / q) ^ 9 / 362880)| ≤ 9 / 10 ^ 6 := by
  unfold sinOK at h
  simp only [Bool.and_eq_true, decide_eq_true_eq] at h
  obtain ⟨⟨h0, h1⟩, h2⟩ := h
  have hqr : (0 : ℝ) < q := by exact_mod_cast hq
  have r0 : (A : ℝ) ≤ q := by exact_mod_cast h0
  have r1 : (n : ℝ) * ((q : ℝ) ^ 9 * 362880) * 10 ^ 6 +
      ((A : ℝ) ^ 3 * (q : ℝ) ^ 6 * 60480 + (A : ℝ) ^ 7 * (q : ℝ) ^ 2 * 72) * 2 ^ 149 * 10 ^ 6 ≤
      ((A : ℝ) * (q : ℝ) ^ 8 * 362880 + (A : ℝ) ^ 5 * (q : ℝ) ^ 4 * 3024 + (A : ℝ) ^ 9) *
        2 ^ 149 * 10 ^ 6 + 9 * 2 ^ 149 * ((q : ℝ) ^ 9 * 362880) := by exact_mod_cast h1
  have r2 : ((A : ℝ) * (q : ℝ) ^ 8 * 362880 + (A : ℝ) ^ 5 * (q : ℝ) ^ 4 * 3024 + (A : ℝ) ^ 9) *
        2 ^ 149 * 10 ^ 6 ≤ (n : ℝ) * ((q : ℝ) ^ 9 * 362880) * 10 ^ 6 +
      ((A : ℝ) ^ 3 * (q : ℝ) ^ 6 * 60480 + (A : ℝ) ^ 7 * (q : ℝ) ^ 2 * 72) * 2 ^ 149 * 10 ^ 6 +
      9 * 2 ^ 149 * ((q : ℝ) ^ 9 * 362880) := by exact_mod_cast h2
  refine ⟨(div_le_one hqr).mpr r0, ?_⟩
  have hS : ((A : ℝ) / q) - ((A : ℝ) / q) ^ 3 / 6 + ((A : ℝ) / q) ^ 5 / 120 -
      ((A : ℝ) / q) ^ 7 / 5040 + ((A : ℝ) / q) ^ 9 / 362880 =
      (((A : ℝ) * (q : ℝ) ^ 8 * 362880 + (A : ℝ) ^ 5 * (q : ℝ) ^ 4 * 3024 + (A : ℝ) ^ 9) -
        ((A : ℝ) ^ 3 * (q : ℝ) ^ 6 * 60480 + (A : ℝ) ^ 7 * (q : ℝ) ^ 2 * 72)) /
        ((q : ℝ) ^ 9 * 362880) := by
    field_simp
    ring
  rw [hS]
  have hT : (0 : ℝ) < 2 ^ 149 := by positivity
  generalize (2 : ℝ) ^ 149 = T at r1 r2 hT ⊢
  exact near_of_cross _ T _ _ _ hT (by positivity) r1 r2

theorem cosOK_sound (A q n : Nat) (hq : 0 < q) (h : cosOK A q n = true) :
    (A : ℝ) / q ≤ 1 ∧
    |(n : ℝ) / 2 ^ 149 - (1 - ((A : ℝ) / q) ^ 2 / 2 + ((A : ℝ) / q) ^ 4 / 24 -
      ((A : ℝ) / q) ^ 6 / 720 + ((A : ℝ) / q) ^ 8 / 40320)| ≤ 9 / 10 ^ 6 := by
  unfold cosOK at h
  simp only [Bool.and_eq_true, decide_eq_true_eq] at h
  obtain ⟨⟨h0, h1⟩, h2⟩ := h
  have hqr : (0 : ℝ) < q := by exact_mod_cast hq
  have r0 : (A : ℝ) ≤ q := by exact_mod_cast h0
  have r1 : (n : ℝ) * ((q : ℝ) ^ 8 * 40320) * 10 ^ 6 +
      ((A : ℝ) ^ 2 * (q : ℝ) ^ 6 * 20160 + (A : ℝ) ^ 6 * (q : ℝ) ^ 2 * 56) * 2 ^ 149 * 10 ^ 6 ≤
      ((q : ℝ) ^ 8 * 40320 + (A : ℝ) ^ 4 * (q : ℝ) ^ 4 * 1680 + (A : ℝ) ^ 8) *
        2 ^ 149 * 10 ^ 6 + 9 * 2 ^ 149 * ((q : ℝ) ^ 8 * 40320) := by exact_mod_cast h1
  have r2 : ((q : ℝ) ^ 8 * 40320 + (A : ℝ) ^ 4 * (q : ℝ) ^ 4 * 1680 + (A : ℝ) ^ 8) *
        2 ^ 149 * 10 ^ 6 ≤ (n : ℝ) * ((q : ℝ) ^ 8 * 40320) * 10 ^ 6 +
      ((A : ℝ) ^ 2 * (q : ℝ) ^ 6 * 20160 + (A : ℝ) ^ 6 * (q : ℝ) ^ 2 * 56) * 2 ^ 149 * 10 ^ 6 +
      9 * 2 ^ 149 * ((q : ℝ) ^ 8 * 40320) := by exact_mod_cast h2
  refine ⟨(div_le_one hqr).mpr r0, ?_⟩
  have hS : 1 - ((A : ℝ) / q) ^ 2 / 2 + ((A : ℝ) / q) ^ 4 / 24 -
      ((A : ℝ) / q) ^ 6 / 720 + ((A : ℝ) / q) ^ 8 / 40320 =
      (((q : ℝ) ^ 8 * 40320 + (A : ℝ) ^ 4 * (q : ℝ) ^ 4 * 1680 + (A : ℝ) ^ 8) -
        ((A : ℝ) ^ 2 * (q : ℝ) ^ 6 * 20160 + (A : ℝ) ^ 6 * (q : ℝ) ^ 2 * 56)) /
        ((q : ℝ) ^ 8 * 40320) := by
    field_simp
    ring
  rw [hS]
  have hT : (0 : ℝ) < 2 ^ 149 := by positivity
  generalize (2 : ℝ) ^ 149 = T at r1 r2 hT ⊢
  exact near_of_cross _ T _ _ _ hT (by positivity) r1 r2

theorem angle_close (b : Nat) (hb : b ≤ 45) :
    |(b : ℝ) * Real.pi / 180 - ((b * 3141592 : ℕ) : ℝ) / ((180000000 : ℕ) : ℝ)| ≤
      25 / 10 ^ 8 := by
  have p1 := Real.pi_gt_d6
  have p2 := Real.pi_lt_d6
  have hb0 : (0 : ℝ) ≤ b := Nat.cast_nonneg b
  have hb1 : (b : ℝ) ≤ 45 := by exact_mod_cast hb
  have e : (b : ℝ) * Real.pi / 180 - ((b * 3141592 : ℕ) : ℝ) / ((180000000 : ℕ) : ℝ) =
      (b : ℝ) * (Real.pi - 3.141592) / 180 := by
    push_cast
    ring
  rw [e, abs_le]
  constructor <;> norm_num at p1 p2 ⊢ <;> nlinarith

theorem entry_accurate (a n : Nat) (ha : a ≤ 89) (h : entryOK a n = true) :
    |(n : ℝ) / 2 ^ 149 - Real.sin ((a : ℝ) * Real.pi / 180)| ≤ 1 / 10 ^ 5 := by
  unfold entryOK at h
  by_cases h45 : a ≤ 45
  · rw [if_pos h45] at h
    obtain ⟨hx1, hS⟩ := sinOK_sound _ _ n (by decide) h
    have hx0 : (0 : ℝ) ≤ ((a * 3141592 : ℕ) : ℝ) / ((180000000 : ℕ) : ℝ) := by positivity
    have hT := (sin_cos_taylor _ (abs_le.mpr ⟨by linarith, hx1⟩)).1
    have hL := (abs_sin_sub_sin_le ((a : ℝ) * Real.pi / 180)
      (((a * 3141592 : ℕ) : ℝ) / ((180000000 : ℕ) : ℝ))).trans (angle_close a h45)
    rw [abs_le] at hS hT hL ⊢
    constructor <;> norm_num at hS hT hL ⊢ <;> linarith
  · rw [if_neg h45] at h
    obtain ⟨hx1, hS⟩ := cosOK_sound _ _ n (by decide) h
    have hb : 90 - a ≤ 45 := by omega
    have hx0 : (0 : ℝ) ≤ (((90 - a) * 3141592 : ℕ) : ℝ) / ((180000000 : ℕ) : ℝ) := by
      positivity
    have hT := (sin_cos_taylor _ (abs_le.mpr ⟨by linarith, hx1⟩)).2
    have hL := (abs_cos_sub_cos_le (((90 - a : ℕ) : ℝ) * Real.pi / 180)
      ((((90 - a) * 3141592 : ℕ) : ℝ) / ((180000000 : ℕ) : ℝ))).trans (angle_close (90 - a) hb)
    have hsc : Real.sin ((a : ℝ) * Real.pi / 180) =
        Real.cos (((90 - a : ℕ) : ℝ) * Real.pi / 180) := by
      rw [← Real.sin_pi_div_two_sub]
      congr 1
      have : ((90 - a : ℕ) : ℝ) = 90 - (a : ℝ) := by
        rw [Nat.cast_sub (by omega)]; norm_num
      rw [this]
      ring
    rw [hsc]
    rw [abs_le] at hS hT hL ⊢
    constructor <;> norm_num at hS hT hL ⊢ <;> linarith

theorem fSineBits_get (a : Nat) (ha : a < 90) :
    fSineBits[a]? = some (FP.fin false (fSineMags.getD a 0)) := by
  have hl : fSineMags.length = 90 := rfl
  unfold fSineBits
  rw [List.getElem?_map, List.getD_eq_getElem?_getD, List.getElem?_eq_getElem (by omega)]
  rfl

/-- C3: for every integer `a` in [0,89], `Sine(a)` returns a finite member of
the `float` format that differs from the real sine of `a` degrees,
`sin(a*pi/180)`, by at most `10 ^ (-5)`. -/
theorem Sine_accuracy (FP_NAN : Int) (a : Int) (h0 : 0 ≤ a) (h1 : a ≤ 89) :
    ∃ n : Nat, Sine FP_NAN a = some (FP.fin false n) ∧ (FP.fin false n : F32).IsFinite ∧
      |((FP.toRat (FP.fin false n : F32) : ℚ) : ℝ) - Real.sin ((a : ℝ) * Real.pi / 180)| ≤
        1 / 10 ^ 5 := by
  obtain ⟨k, rfl⟩ := Int.eq_ofNat_of_zero_le h0
  have hk : k < 90 := by omega
  have hok : entryOK k (fSineMags.getD k 0) = true :=
    List.all_eq_true.mp table_entries_ok k (List.mem_range.mpr hk)
  have hacc := entry_accurate k _ (by omega) hok
  have hget : fSine[k]? = some (FP.fin false (fSineMags.getD k 0)) := by
    rw [fSine_eq]; exact fSineBits_get k hk
  refine ⟨fSineMags.getD k 0, ?_, ?_, ?_⟩
  · rw [Sine_eq_fSineAt FP_NAN k h0 h1, fSineAt_eq, if_pos h0]
    exact fSineBits_get k hk
  · have hmem : FP.fin false (fSineMags.getD k 0) ∈ fSine := List.getElem?_mem hget
    obtain ⟨x, -, hx⟩ := List.mem_map.mp hmem
    have hw := FP.cvt_wellFormed binary32 (by decide) x
    rw [hx] at hw
    exact hw
  · rw [FP.toRat_fin]
    simp only [Bool.false_eq_true, if_false]
    have : (((fSineMags.getD k 0 : ℕ) : ℚ) / 2 ^ binary32.scale : ℚ) =
        ((fSineMags.getD k 0 : ℕ) : ℚ) / 2 ^ 149 := rfl
    rw [this]
    push_cast
    exact hacc

/-- Witness for C3 at `a = 30`. -/
theorem Sine_accuracy_witness :
    ∃ n : Nat, Sine 0 30 = some (FP.fin false n) ∧ (FP.fin false n : F32).IsFinite ∧
      |((FP.toRat (FP.fin false n : F32) : ℚ) : ℝ) - Real.sin (((30 : Int) : ℝ) * Real.pi / 180)| ≤
        1 / 10 ^ 5 :=
  Sine_accuracy 0 30 (by decide) (by decide)

end SinLUT
